import Mathlib

/-!
Verification development for the adaptive question-set generation pipeline
of the satapp repository.

The streaming generation endpoint (`src/unnamed/part_001`, `POST`) and the
non-streaming endpoint (`src/unnamed/part_002`, `POST`) are embedded
shallowly: strings are Lean strings (lists of characters), JSON values are
an inductive `JsonV`, the upstream generative model is a `Behavior` record
supplying the text of every call it answers (or a thrown error), and
`JSON.parse` is a function parameter `parse : String → Option JsonV`
instantiated with concrete association tables in witnesses.

Character classes model the ASCII fragment of the JavaScript regex classes
`\s` and `\w`; all text appearing in the concrete claims is ASCII.
-/

set_option maxRecDepth 100000

/-- ASCII fragment of the JavaScript regex class `\s`
(space, tab, newline, carriage return, form feed, vertical tab). -/
def isWsChar (c : Char) : Bool :=
  c = ' ' || c = '\t' || c = '\n' || c = '\x0d' || c = '\x0c' || c = '\x0b'

/-- The JavaScript regex class `\w`: ASCII letters, digits and underscore. -/
def isWordChar (c : Char) : Bool :=
  ('a' ≤ c && c ≤ 'z') || ('A' ≤ c && c ≤ 'Z') || ('0' ≤ c && c ≤ '9') || c = '_'

theorem wsChar_not_wordChar {c : Char} (h : isWsChar c = true) : isWordChar c = false := by
  unfold isWsChar at h
  simp only [Bool.or_eq_true, decide_eq_true_eq] at h
  rcases h with ((((h | h) | h) | h) | h) | h <;> subst h <;> decide

theorem not_wsChar_of_wordChar {c : Char} (h : isWordChar c = true) : isWsChar c = false := by
  cases hw : isWsChar c with
  | false => rfl
  | true => rw [wsChar_not_wordChar hw] at h; exact absurd h (by simp)

/-- Drop trailing characters satisfying `isWsChar` (right half of `String.prototype.trim`). -/
def trimRight : List Char → List Char
  | [] => []
  | c :: t =>
    match trimRight t with
    | [] => if isWsChar c then [] else [c]
    | r => c :: r

/-- The JavaScript `String.prototype.trim`, on character lists. -/
def trimList (l : List Char) : List Char :=
  trimRight (l.dropWhile isWsChar)

/-- The JavaScript `String.prototype.trim`, on strings. -/
def jsTrim (s : String) : String :=
  ⟨trimList s.data⟩

/-- Boundary test to the right of a candidate whole-word match: end of string
or a non-word character (the right `\b` of `/\bblank\b/`). -/
def nbndOK : List Char → Bool
  | [] => true
  | d :: _ => !isWordChar d

/-- Case-insensitive character test used to match the letters of `blank`. -/
def isCI (c lo hi : Char) : Bool := c = lo || c = hi

/-- Does `/\bblank\b/i` match at the current position?  `pw` records whether the
character immediately before the current position is a word character
(`false` at the start of the string), giving the left `\b`. -/
def isM (pw : Bool) : List Char → Bool
  | c1 :: c2 :: c3 :: c4 :: c5 :: rest =>
      !pw && isCI c1 'b' 'B' && isCI c2 'l' 'L' && isCI c3 'a' 'A' &&
        isCI c4 'n' 'N' && isCI c5 'k' 'K' && nbndOK rest
  | _ => false

/-- Global replacement `s.replace(/\bblank\b/gi, '')` from `sanitizeQuestion`
(src/unnamed/part_001 line 83).  The scan walks the string left to right; on a
match the five matched characters are skipped (`n` counts characters still to
skip) and, as in the regex engine, scanning resumes after the match with the
previous-character context taken from the original string. -/
def removeBlankL : List Char → Bool → Nat → List Char
  | [], _, _ => []
  | c :: rest, pw, n =>
    match n with
    | Nat.succ m => removeBlankL rest (isWordChar c) m
    | 0 =>
      if isM pw (c :: rest) then removeBlankL rest true 4
      else c :: removeBlankL rest (isWordChar c) 0

/-- Global replacement `s.replace(/\s{2,}/g, ' ')` from `sanitizeQuestion`:
each maximal run of two or more whitespace characters becomes one space;
an isolated whitespace character is kept as it is.  The flag records whether
we are inside a run that has already been replaced by a space. -/
def collapseRuns : List Char → Bool → List Char
  | [], _ => []
  | c :: rest, true =>
    if isWsChar c then collapseRuns rest true else c :: collapseRuns rest false
  | c :: rest, false =>
    if isWsChar c then
      match rest with
      | [] => [c]
      | d :: _ =>
        if isWsChar d then ' ' :: collapseRuns rest true
        else c :: collapseRuns rest false
    else c :: collapseRuns rest false

/-- The full cleaning step of `sanitizeQuestion` (src/unnamed/part_001 line 83):
`s.replace(/\bblank\b/gi, '').replace(/\s{2,}/g, ' ').trim()`. -/
def cleanList (l : List Char) : List Char :=
  trimList (collapseRuns (removeBlankL l false 0) false)

/-- `clean` of `sanitizeQuestion`, on strings. -/
def cleanStr (s : String) : String :=
  ⟨cleanList s.data⟩

/-- Does the string contain a whole-word, case-insensitive occurrence of
`blank` (i.e. would `/\bblank\b/i` match anywhere)?  `pw` is the
previous-character context, `false` at the start of the string. -/
def hasBlankWord : Bool → List Char → Bool
  | pw, [] => isM pw []
  | pw, c :: rest => isM pw (c :: rest) || hasBlankWord (isWordChar c) rest

/-- JSON-like runtime values: the possible results of `JSON.parse` plus the
JavaScript value `undefined`, which is what reading a missing property
returns. -/
inductive JsonV where
  | null
  | boolean (b : Bool)
  | num (q : Rat)
  | str (s : String)
  | arr (xs : List JsonV)
  | obj (fs : List (String × JsonV))
  | undefined
deriving Repr

/-- Property lookup on an object's field list (first binding wins, `undefined`
when the key is missing). -/
def lookupField : List (String × JsonV) → String → JsonV
  | [], _ => .undefined
  | (k, v) :: rest, key => if k = key then v else lookupField rest key

/-- JavaScript property read `q.key`: `undefined` on every non-object. -/
def getField : JsonV → String → JsonV
  | .obj fs, key => lookupField fs key
  | _, _ => .undefined

/-- Setting a property (as the object-spread override `{...q, key: v}` does):
replace the first binding of the key in place, or append it. -/
def setFieldList : List (String × JsonV) → String → JsonV → List (String × JsonV)
  | [], key, v => [(key, v)]
  | (k, w) :: rest, key, v =>
    if k = key then (key, v) :: rest else (k, w) :: setFieldList rest key v

/-- JavaScript falsiness of a value (`undefined`, `null`, `false`, `0`, `""`). -/
def falsyJ : JsonV → Bool
  | .null => true
  | .undefined => true
  | .boolean b => !b
  | .num q => decide (q = 0)
  | .str s => decide (s = "")
  | _ => false

/-- `typeof x === "object"`: true for `null`, plain objects and arrays. -/
def isObjectType : JsonV → Bool
  | .null => true
  | .obj _ => true
  | .arr _ => true
  | _ => false

/-- `isValidQuestion` from src/unnamed/part_001 lines 67-80, translated
check for check.  String `.length` is the character count (the sources only
ever meet ASCII, where this agrees with JavaScript's UTF-16 length). -/
def isValidQuestion (q : JsonV) : Bool :=
  if falsyJ q || !isObjectType q then false
  else if !(match getField q "question" with
            | .str s => decide (5 ≤ (jsTrim s).length)
            | _ => false) then false
  else if !(match getField q "multipleChoiceOptions" with
            | .arr xs =>
              decide (xs.length = 4) &&
                xs.all (fun x => match x with
                  | .str s => decide (0 < (jsTrim s).length)
                  | _ => false)
            | _ => false) then false
  else if !(match getField q "correctAnswer" with
            | .str s => decide (s = "A") || decide (s = "B") || decide (s = "C") || decide (s = "D")
            | _ => false) then false
  else
    let ie :=
      if falsyJ (getField q "incorrectExplanations") then JsonV.obj []
      else getField q "incorrectExplanations"
    if falsyJ ie || !isObjectType ie then false
    else if !(["A", "B", "C", "D"].all (fun k =>
              match getField ie k with
              | .str s => decide (0 < (jsTrim s).length)
              | _ => false)) then false
    else
      match getField q "correctExplanation" with
      | .str s => decide (0 < (jsTrim s).length)
      | _ => false

/-- The `clean` helper of `sanitizeQuestion`, lifted to values: strings are
cleaned, everything else is returned as is (`typeof s === 'string' ? ... : s`). -/
def cleanV : JsonV → JsonV
  | .str s => .str (cleanStr s)
  | v => v

/-- `sanitizeQuestion` from src/unnamed/part_001 lines 81-90: the object
spread `{...q, question: clean(q.question), multipleChoiceOptions: ...}`.
Both call sites apply it only after `isValidQuestion`, whose first check
rules out non-objects, so the non-object case returns the value unchanged
(matching the `catch { return q }` of the source). -/
def sanitizeQuestion : JsonV → JsonV
  | .obj fs =>
    let q := JsonV.obj fs
    let opts :=
      match getField q "multipleChoiceOptions" with
      | .arr xs => JsonV.arr (xs.map cleanV)
      | v => v
    .obj (setFieldList
      (setFieldList fs "question" (cleanV (getField q "question")))
      "multipleChoiceOptions" opts)
  | v => v

/-- The per-element sanitizer of src/unnamed/part_002 lines 100-116: same
spread, but also re-writing `incorrectExplanations` and `correctExplanation`
with their own current values; non-objects are returned unchanged
(`if (q && typeof q === 'object')`). -/
def sanitizeQuestion2 : JsonV → JsonV
  | .obj fs =>
    let q := JsonV.obj fs
    let opts :=
      match getField q "multipleChoiceOptions" with
      | .arr xs => JsonV.arr (xs.map cleanV)
      | v => v
    .obj (setFieldList
      (setFieldList
        (setFieldList
          (setFieldList fs "question" (cleanV (getField q "question")))
          "multipleChoiceOptions" opts)
        "incorrectExplanations" (getField q "incorrectExplanations"))
      "correctExplanation" (getField q "correctExplanation"))
  | v => v

/-- Replacement `/\s+/g → ' '`: every maximal whitespace run (length ≥ 1)
becomes one space.  The flag records being inside an already-replaced run. -/
def collapseAllWs : List Char → Bool → List Char
  | [], _ => []
  | c :: rest, true =>
    if isWsChar c then collapseAllWs rest true else c :: collapseAllWs rest false
  | c :: rest, false =>
    if isWsChar c then ' ' :: collapseAllWs rest true else c :: collapseAllWs rest false

/-- The duplicate fingerprint `normalize` of src/unnamed/part_001 line 235:
`s.toLowerCase().replace(/\s+/g, ' ').slice(0, 140)`. -/
def normalizeStem (s : String) : String :=
  ⟨(collapseAllWs (s.data.map Char.toLower) false).take 140⟩

/-- Is the first list a prefix of the second? -/
def startsWithL : List Char → List Char → Bool
  | [], _ => true
  | _ :: _, [] => false
  | p :: ps, c :: cs => p = c && startsWithL ps cs

/-- Consume a leading case-insensitive `json` tag if present (the optional
group of `/^```(?:json)?/i`). -/
def dropJsonTag : List Char → List Char
  | c1 :: c2 :: c3 :: c4 :: r =>
    if isCI c1 'j' 'J' && isCI c2 's' 'S' && isCI c3 'o' 'O' && isCI c4 'n' 'N'
    then r else c1 :: c2 :: c3 :: c4 :: r
  | l => l

/-- `s.replace(/^```(?:json)?/i, '')`. -/
def dropFenceOpenL (l : List Char) : List Char :=
  if startsWithL "```".data l then dropJsonTag (l.drop 3) else l

/-- `s.replace(/```$/i, '')`. -/
def dropFenceCloseL (l : List Char) : List Char :=
  if startsWithL "```".data l.reverse then (l.reverse.drop 3).reverse else l

/-- The markdown-fence stripping applied to single-item recovery responses
(src/unnamed/part_001 lines 250 and 272):
`raw.replace(/^```(?:json)?/i, '').replace(/```$/i, '').trim()`. -/
def stripFences (s : String) : String :=
  ⟨trimList (dropFenceCloseL (dropFenceOpenL s.data))⟩

/-- Split at each single `'\n'`, keeping the text after the last delimiter as
the remainder (the `while ((idx = buffer.indexOf("\n")) !== -1)` extraction,
src/unnamed/part_001 lines 107-110).  The accumulator holds the current
segment reversed. -/
def snAux : List Char → List Char → List (List Char) × List Char
  | [], cur => ([], cur.reverse)
  | c :: rest, cur =>
    if c = '\n' then
      let p := snAux rest []
      (cur.reverse :: p.1, p.2)
    else snAux rest (c :: cur)

/-- Complete lines before each `'\n'`, plus the delimiter-less remainder. -/
def splitNL (l : List Char) : List (List Char) × List Char := snAux l []

/-- `text.split(/\n+/)`: segments between maximal newline runs (leading and
trailing empty segments included, as in JavaScript). -/
def srAux : List Char → List Char → Bool → List (List Char)
  | [], cur, _ => [cur.reverse]
  | c :: rest, cur, afterNl =>
    if c = '\n' then
      if afterNl then srAux rest cur true
      else cur.reverse :: srAux rest [] true
    else srAux rest (c :: cur) false

/-- `text.split(/\n+/)` on a character list. -/
def splitRuns (l : List Char) : List (List Char) := srAux l [] false

/-- `text.split(/\n+/).map(l => l.trim()).filter(Boolean)` — the candidate
lines of every bulk (non-streaming) response. -/
def ndLines (s : String) : List String :=
  ((splitRuns s.data).map (fun l => jsTrim ⟨l⟩)).filter (fun x => decide (x ≠ ""))

/-- The effective requested count (src/unnamed/part_001 line 22 and
src/unnamed/part_002 line 20):
`typeof body.count === "number" && body.count > 0 ? Math.min(10, body.count) : 10`.
`none` stands for an absent or non-numeric `count` (including `NaN`, for
which `body.count > 0` is false, so it also yields 10). -/
def effectiveCount : Option Rat → Rat
  | some c => if 0 < c then min 10 c else 10
  | none => 10

/-- One emitted NDJSON event.  Runtime-only payload fields (timestamps,
chunk sizes, numeric diagnostics) are dropped; the discriminating `type`
and `stage` values, question payloads and counters are kept. -/
inductive Ev where
  | server (stage : String)
  | question (index : Nat) (q : JsonV)
  | progress (completed total : Nat)
  | done
  | error
deriving Repr

/-- Orchestrator state: the `emitted` counter of the source and the ordered
list of events enqueued so far. -/
structure OrchSt where
  emitted : Nat
  events : List Ev

/-- One upstream model run, as seen by a single request: the outcome of every
model call the endpoint may make.  `Except.error ()` means the call throws;
for the primary call, `Except.ok b` reports whether a streaming channel was
obtained (`result && result.stream`). -/
structure Behavior where
  primaryCall : Except Unit Bool
  chunks : List String
  topup1 : Except Unit String
  topup2 : Except Unit String
  topup3 : Except Unit String
  fallbackMain : Except Unit String
  fallbackTopup : Except Unit String
  singles : List (Except Unit String)
  retries : List (Except Unit String)

/-- Accept one question value: bump `emitted`, enqueue the `question` event
with the new 1-based index and the `progress` event. -/
def acceptQ (count : Nat) (st : OrchSt) (q : JsonV) : OrchSt :=
  { emitted := st.emitted + 1,
    events := st.events ++ [Ev.question (st.emitted + 1) q, Ev.progress (st.emitted + 1) count] }

/-- Handling of one complete line in the primary streaming loop
(src/unnamed/part_001 lines 108-125): trim, skip if empty, parse, validate,
sanitize and accept — with no cap on `emitted`.  Unparseable lines are
ignored silently; invalid ones produce an `invalid` diagnostic. -/
def processCompleteLine (parse : String → Option JsonV) (count : Nat)
    (st : OrchSt) (rawLine : String) : OrchSt :=
  let line := jsTrim rawLine
  if line = "" then st
  else
    match parse line with
    | none => st
    | some q =>
      if isValidQuestion q then acceptQ count st (sanitizeQuestion q)
      else { st with events := st.events ++ [Ev.server "invalid"] }

/-- One inbound chunk: enqueue the `chunk` diagnostic, append to the buffer,
extract and process every complete line, keep the remainder. -/
def processChunk (parse : String → Option JsonV) (count : Nat)
    (p : OrchSt × String) (txt : String) : OrchSt × String :=
  let st := { p.1 with events := p.1.events ++ [Ev.server "chunk"] }
  let split := splitNL (p.2 ++ txt).data
  ((split.1.map (fun l => (⟨l⟩ : String))).foldl (processCompleteLine parse count) st,
    ⟨split.2⟩)

/-- The primary streaming phase: lifecycle events, then all chunks.
Returns the state and the undelimited buffer remainder. -/
def streamInitSt : OrchSt :=
  { emitted := 0,
    events := [Ev.server "received", Ev.server "prompt-built", Ev.server "stream-open"] }

def primaryStage (parse : String → Option JsonV) (count : Nat)
    (chunks : List String) : OrchSt × String :=
  chunks.foldl (processChunk parse count) (streamInitSt, "")

/-- One pending line of the end-of-stream flush (src/unnamed/part_001 lines
128-146): the loop breaks once `emitted` reaches `count`; parse errors and
invalid units produce trailing diagnostics. -/
def flushLine (parse : String → Option JsonV) (count : Nat)
    (st : OrchSt) (line : String) : OrchSt :=
  if count ≤ st.emitted then st
  else
    match parse line with
    | none => { st with events := st.events ++ [Ev.server "parse-error-trailing"] }
    | some q =>
      if isValidQuestion q then acceptQ count st (sanitizeQuestion q)
      else { st with events := st.events ++ [Ev.server "invalid-trailing"] }

/-- The end-of-stream flush, guarded by a non-blank remainder and a short
count. -/
def flushStage (parse : String → Option JsonV) (count : Nat)
    (st : OrchSt) (buf : String) : OrchSt :=
  if jsTrim buf ≠ "" ∧ st.emitted < count then
    (ndLines buf).foldl (flushLine parse count) st
  else st

/-- One candidate line of a bulk top-up round.  The first round reports
`invalid-fallback` and `parse-error-fallback` diagnostics; the second and
third rounds swallow failures silently (`verbose = false`). -/
def topupLine (parse : String → Option JsonV) (count : Nat) (verbose : Bool)
    (st : OrchSt) (line : String) : OrchSt :=
  if count ≤ st.emitted then st
  else
    match parse line with
    | none =>
      if verbose then { st with events := st.events ++ [Ev.server "parse-error-fallback"] } else st
    | some q =>
      if isValidQuestion q then acceptQ count st (sanitizeQuestion q)
      else if verbose then { st with events := st.events ++ [Ev.server "invalid-fallback"] } else st

/-- All candidate lines of one bulk top-up response. -/
def runTopup (parse : String → Option JsonV) (count : Nat) (verbose : Bool)
    (st : OrchSt) (text : String) : OrchSt :=
  (ndLines text).foldl (topupLine parse count verbose) st

/-- The three nested bulk top-up rounds (src/unnamed/part_001 lines 148-224).
Each round's model call is awaited outside any local try/catch, so a thrown
call propagates to the outer handler: the session emits the `error` event and
aborts (`Except.error` carries the final event list). -/
def topupStage (parse : String → Option JsonV) (count : Nat) (b : Behavior)
    (st : OrchSt) : Except (List Ev) OrchSt :=
  if st.emitted < count then
    let st1 := { st with events := st.events ++ [Ev.server "fallback-topup"] }
    match b.topup1 with
    | .error _ => .error (st1.events ++ [Ev.error])
    | .ok t1 =>
      let st2 := runTopup parse count true st1 t1
      if st2.emitted < count then
        let st3 := { st2 with events := st2.events ++ [Ev.server "second-retry"] }
        match b.topup2 with
        | .error _ => .error (st3.events ++ [Ev.error])
        | .ok t2 =>
          let st4 := runTopup parse count false st3 t2
          if st4.emitted < count then
            let st5 := { st4 with events := st4.events ++ [Ev.server "final-retry"] }
            match b.topup3 with
            | .error _ => .error (st5.events ++ [Ev.error])
            | .ok t3 => .ok (runTopup parse count false st5 t3)
          else .ok st4
      else .ok st2
  else .ok st

/-- The hard-coded last-resort synthetic unit (src/unnamed/part_001 lines
290-306); `i` is the value of `emitted` after the increment. -/
def syntheticQ (i : Nat) (topic : String) : JsonV :=
  .obj [("question",
          .str ("Synthetic recovery question " ++ toString i ++ " for " ++ topic ++
            ": Choose the best option.")),
        ("multipleChoiceOptions",
          .arr [.str "A. Conceptual distractor", .str "B. Another distractor",
                .str "C. Correct answer", .str "D. Plausible but wrong"]),
        ("correctAnswer", .str "C"),
        ("incorrectExplanations",
          .obj [("A", .str "A does not address the core requirement."),
                ("B", .str "B is irrelevant to the topic focus."),
                ("C", .str "C best fits the topic context."),
                ("D", .str "D introduces an unsupported idea.")]),
        ("correctExplanation",
          .str "C directly satisfies the constraints of the topic while others do not.")]

/-- Parse a single-item response: trim the raw text, strip markdown fences,
trim again, then `JSON.parse`. -/
def parseSingle (parse : String → Option JsonV) (raw : String) : Option JsonV :=
  parse (stripFences (jsTrim raw))

/-- `candidate && isValidQuestion(candidate)`. -/
def candOK : Option JsonV → Option JsonV
  | some v => if !falsyJ v && isValidQuestion v then some v else none
  | none => none

/-- `candidate.question || ''` for a validated candidate. -/
def stemOrEmpty (v : JsonV) : String :=
  match getField v "question" with
  | .str s => s
  | _ => ""

/-- The tail of one single-item recovery iteration, reached when the
one-shot call did not produce a fresh valid unit: the variant retry
(src/unnamed/part_001 lines 264-285), falling through to the synthetic
filler (lines 287-310) when the retry throws, fails to parse or validate,
or duplicates an already-used fingerprint. -/
def singleRetry (parse : String → Option JsonV) (count : Nat) (topic : String)
    (st : OrchSt) (dedup : List String) : Except Unit String → OrchSt × List String
  | .error _ =>
    (acceptQ count st (sanitizeQuestion (syntheticQ (st.emitted + 1) topic)), dedup)
  | .ok raw2 =>
    match candOK (parseSingle parse raw2) with
    | some v2 =>
      if normalizeStem (stemOrEmpty v2) ∈ dedup then
        (acceptQ count st (sanitizeQuestion (syntheticQ (st.emitted + 1) topic)), dedup)
      else (acceptQ count st (sanitizeQuestion v2), dedup ++ [normalizeStem (stemOrEmpty v2)])
    | none =>
      (acceptQ count st (sanitizeQuestion (syntheticQ (st.emitted + 1) topic)), dedup)

/-- One iteration of the single-item recovery loop (src/unnamed/part_001
lines 237-311): a one-shot call, on duplicate/invalid one variant retry, and
otherwise the synthetic filler.  A throw from either call is caught by the
iteration's local try/catch and falls through to the filler.  Exactly one
unit is accepted per iteration.  Returns the new state and dedup set. -/
def singleIter (parse : String → Option JsonV) (count : Nat) (topic : String)
    (st : OrchSt) (dedup : List String) :
    Except Unit String → Except Unit String → OrchSt × List String
  | .error _, _ =>
    (acceptQ count st (sanitizeQuestion (syntheticQ (st.emitted + 1) topic)), dedup)
  | .ok raw, rres =>
    match candOK (parseSingle parse raw) with
    | some v =>
      if normalizeStem (stemOrEmpty v) ∈ dedup then singleRetry parse count topic st dedup rres
      else (acceptQ count st (sanitizeQuestion v), dedup ++ [normalizeStem (stemOrEmpty v)])
    | none => singleRetry parse count topic st dedup rres

/-- The `while (emitted < count)` recovery loop, driven by fuel.  Every
iteration accepts exactly one unit, so `count - emitted` iterations run;
`i` indexes into the per-iteration call outcomes. -/
def singleLoop (parse : String → Option JsonV) (count : Nat) (topic : String)
    (singles retries : List (Except Unit String)) :
    Nat → Nat → OrchSt → List String → OrchSt
  | 0, _, st, _ => st
  | Nat.succ fuel, i, st, dedup =>
    let p := singleIter parse count topic st dedup
      (singles.getD i (.error ())) (retries.getD i (.error ()))
    singleLoop parse count topic singles retries fuel (i + 1) p.1 p.2

/-- The single-item recovery stage, entered only when short; the dedup set
starts empty (the source does not seed it with earlier stems). -/
def singleStage (parse : String → Option JsonV) (count : Nat) (topic : String)
    (b : Behavior) (st : OrchSt) : OrchSt :=
  if st.emitted < count then
    let st1 := { st with events := st.events ++ [Ev.server "final-single-regeneration"] }
    singleLoop parse count topic b.singles b.retries (count - st1.emitted) 0 st1 []
  else st

/-- The whole streaming path (`result.stream` present): primary stream,
flush, bulk top-ups, single-item recovery, then the terminal event. -/
def runStreamPath (parse : String → Option JsonV) (count : Nat) (topic : String)
    (b : Behavior) : List Ev :=
  let p := primaryStage parse count b.chunks
  let st := flushStage parse count p.1 p.2
  match topupStage parse count b st with
  | .error evs => evs
  | .ok st2 =>
    let st3 := singleStage parse count topic b st2
    st3.events ++ [Ev.done]

/-- One candidate line of the non-streaming fallback's first pass
(src/unnamed/part_001 lines 327-336): no cap, no sanitizer, no diagnostics. -/
def fallbackLine (parse : String → Option JsonV) (count : Nat)
    (st : OrchSt) (line : String) : OrchSt :=
  match parse line with
  | none => st
  | some q => if isValidQuestion q then acceptQ count st q else st

/-- One candidate line of the non-streaming fallback's single top-up
(src/unnamed/part_001 lines 348-358): capped at `count`, no sanitizer. -/
def fallbackTopupLine (parse : String → Option JsonV) (count : Nat)
    (st : OrchSt) (line : String) : OrchSt :=
  if count ≤ st.emitted then st
  else
    match parse line with
    | none => st
    | some q => if isValidQuestion q then acceptQ count st q else st

/-- The non-streaming fallback path (src/unnamed/part_001 lines 318-361),
taken when no streaming channel is available: one bulk generation, at most
one top-up round, then `done` — with no single-item recovery and no
synthetic filler.  A thrown call propagates to the outer handler. -/
def runFallbackPath (parse : String → Option JsonV) (count : Nat)
    (b : Behavior) : List Ev :=
  let st0 : OrchSt :=
    { emitted := 0,
      events := [Ev.server "received", Ev.server "prompt-built", Ev.server "fallback"] }
  match b.fallbackMain with
  | .error _ => st0.events ++ [Ev.error]
  | .ok text =>
    let st1 := (ndLines text).foldl (fallbackLine parse count) st0
    if st1.emitted < count then
      let st2 := { st1 with events := st1.events ++ [Ev.server "fallback-topup"] }
      match b.fallbackTopup with
      | .error _ => st2.events ++ [Ev.error]
      | .ok t2 =>
        ((ndLines t2).foldl (fallbackTopupLine parse count) st2).events ++ [Ev.done]
    else st1.events ++ [Ev.done]

/-- One full generation session of the streaming endpoint
(src/unnamed/part_001): the primary call either throws (aborting before any
streaming), opens a stream, or falls back to non-streaming generation. -/
def runSession (parse : String → Option JsonV) (count : Nat) (topic : String)
    (b : Behavior) : List Ev :=
  match b.primaryCall with
  | .error _ => [Ev.server "received", Ev.server "prompt-built", Ev.error]
  | .ok true => runStreamPath parse count topic b
  | .ok false => runFallbackPath parse count b

/-- The indices carried by `question` events, in emission order. -/
def qIdxs (evs : List Ev) : List Nat :=
  evs.filterMap (fun e => match e with | Ev.question i _ => some i | _ => none)

/-- The question payloads carried by `question` events, in emission order. -/
def qUnits (evs : List Ev) : List JsonV :=
  evs.filterMap (fun e => match e with | Ev.question _ q => some q | _ => none)

/-- The Line Framer in isolation: append a chunk to the buffer, extract every
complete line, trim it and discard blanks (src/unnamed/part_001 lines
101-125, framing only). -/
def feedChunk (st : List String × String) (chunk : String) : List String × String :=
  let split := splitNL (st.2 ++ chunk).data
  (st.1 ++ ((split.1.map (fun l => jsTrim (⟨l⟩ : String))).filter (fun x => decide (x ≠ ""))),
    ⟨split.2⟩)

/-- All candidates produced by a chunk sequence, including the end-of-stream
flush of the undelimited remainder (split on `/\n+/`, trimmed, blanks
discarded — src/unnamed/part_001 lines 128-129). -/
def frameCandidates (chunks : List String) : List String :=
  let p := chunks.foldl feedChunk ([], "")
  p.1 ++ (if jsTrim p.2 ≠ "" then ndLines p.2 else [])

/-- The non-streaming endpoint's response (src/unnamed/part_002 lines
84-118): status code and JSON body, given the parse of the model's text.
Parse failure, a falsy parse result and a missing `questions` array all
produce the 502 error body; otherwise the questions are sanitized in place
and returned with status 200 — with no check of their number or shape. -/
def nonStreamBody (parse : String → Option JsonV) (text : String) : Nat × JsonV :=
  let errBody : JsonV :=
    .obj [("error", .str "Model did not return valid JSON"), ("raw", .str text)]
  match parse text with
  | none => (502, errBody)
  | some parsed =>
    if falsyJ parsed then (502, errBody)
    else
      match getField parsed "questions" with
      | .arr qs =>
        (200,
          match parsed with
          | .obj fs => .obj (setFieldList fs "questions" (.arr (qs.map sanitizeQuestion2)))
          | v => v)
      | _ => (502, errBody)

/-- A well-formed NDJSON candidate line, exactly as a model would emit it. -/
def q1Text : String :=
  "\x7b\"question\":\"What is two plus two equal to?\",\"multipleChoiceOptions\":[\"A. 1\",\"B. 2\",\"C. 3\",\"D. 4\"],\"correctAnswer\":\"D\",\"incorrectExplanations\":\x7b\"A\":\"One is too small.\",\"B\":\"Two is too small.\",\"C\":\"Three is one short.\",\"D\":\"D is the correct choice.\"\x7d,\"correctExplanation\":\"Two plus two is four.\"\x7d"

/-- The value `JSON.parse` yields on `q1Text`. -/
def q1Val : JsonV :=
  .obj [("question", .str "What is two plus two equal to?"),
        ("multipleChoiceOptions", .arr [.str "A. 1", .str "B. 2", .str "C. 3", .str "D. 4"]),
        ("correctAnswer", .str "D"),
        ("incorrectExplanations",
          .obj [("A", .str "One is too small."), ("B", .str "Two is too small."),
                ("C", .str "Three is one short."), ("D", .str "D is the correct choice.")]),
        ("correctExplanation", .str "Two plus two is four.")]

/-- A second well-formed candidate line with a different stem. -/
def q2Text : String :=
  "\x7b\"question\":\"Which planet is closest to the sun?\",\"multipleChoiceOptions\":[\"A. Mercury\",\"B. Venus\",\"C. Earth\",\"D. Mars\"],\"correctAnswer\":\"A\",\"incorrectExplanations\":\x7b\"A\":\"A is the correct choice.\",\"B\":\"Venus is second.\",\"C\":\"Earth is third.\",\"D\":\"Mars is fourth.\"\x7d,\"correctExplanation\":\"Mercury orbits innermost.\"\x7d"

/-- The value `JSON.parse` yields on `q2Text`. -/
def q2Val : JsonV :=
  .obj [("question", .str "Which planet is closest to the sun?"),
        ("multipleChoiceOptions", .arr [.str "A. Mercury", .str "B. Venus", .str "C. Earth", .str "D. Mars"]),
        ("correctAnswer", .str "A"),
        ("incorrectExplanations",
          .obj [("A", .str "A is the correct choice."), ("B", .str "Venus is second."),
                ("C", .str "Earth is third."), ("D", .str "Mars is fourth.")]),
        ("correctExplanation", .str "Mercury orbits innermost.")]

/-- The non-streaming endpoint's model text carrying an empty questions
array. -/
def emptyQsText : String := "\x7b\"questions\":[]\x7d"

/-- A concrete stand-in for `JSON.parse`, defined on the exact model outputs
exercised by the concrete runs below and undefined (a parse error)
elsewhere; each mapped string is genuine JSON whose parse is the value
given. -/
def testParse (s : String) : Option JsonV :=
  if s = q1Text then some q1Val
  else if s = q2Text then some q2Val
  else if s = emptyQsText then some (.obj [("questions", .arr [])])
  else none

/-- A model run whose calls all succeed with the given texts. -/
def okBehavior (primary : Bool) (chunks : List String) (t1 t2 t3 fm ft : String) : Behavior :=
  { primaryCall := .ok primary, chunks := chunks,
    topup1 := .ok t1, topup2 := .ok t2, topup3 := .ok t3,
    fallbackMain := .ok fm, fallbackTopup := .ok ft,
    singles := [], retries := [] }

/-- Does the event list contain the terminal `done` event? -/
def hasDoneB (evs : List Ev) : Bool :=
  evs.any (fun e => match e with | Ev.done => true | _ => false)

/-- The length of the `questions` array of a response body (0 otherwise). -/
def questionsLen (v : JsonV) : Nat :=
  match getField v "questions" with
  | .arr qs => qs.length
  | _ => 0

/-- Streaming session of claim C1's counterexample: requested count 1, but
the primary stream delivers two valid candidate lines. -/
def bhvOverflow : Behavior := okBehavior true [q1Text ++ "\n" ++ q2Text ++ "\n"] "" "" "" "" ""

/-- Fallback-path session: no streaming channel, blank model responses. -/
def bhvFallbackShort : Behavior := okBehavior false [] "" "" "" "" ""

/-- Streaming session whose first bulk top-up call throws. -/
def bhvTopupThrow : Behavior := { okBehavior true [] "" "" "" "" "" with topup1 := .error () }

/-- Streaming session whose primary stream emits the same valid line twice. -/
def bhvDup : Behavior := okBehavior true [q1Text ++ "\n" ++ q1Text ++ "\n"] "" "" "" "" ""

theorem lookup_set_eq (fs : List (String × JsonV)) (k : String) (v : JsonV) :
    lookupField (setFieldList fs k v) k = v := by
  induction fs with
  | nil => simp [setFieldList, lookupField]
  | cons p rest ih =>
    obtain ⟨k0, w⟩ := p
    by_cases h : k0 = k
    · simp [setFieldList, h, lookupField]
    · simp [setFieldList, h, lookupField, ih]

theorem lookup_set_ne (fs : List (String × JsonV)) (k k' : String) (v : JsonV)
    (h : k' ≠ k) : lookupField (setFieldList fs k v) k' = lookupField fs k' := by
  induction fs with
  | nil => simp [setFieldList, lookupField, Ne.symm h]
  | cons p rest ih =>
    obtain ⟨k0, w⟩ := p
    by_cases h0 : k0 = k
    · subst h0
      simp [setFieldList, lookupField, Ne.symm h]
    · simp [setFieldList, h0, lookupField, ih]

/-- Claim C10: both sanitizers only rewrite the `question` stem and the
`multipleChoiceOptions` strings — reading any other property of the
sanitized unit (in particular `correctAnswer`, `incorrectExplanations` and
`correctExplanation`) yields exactly the original value. -/
theorem sanitizer_frame (fs : List (String × JsonV)) (k : String)
    (h1 : k ≠ "question") (h2 : k ≠ "multipleChoiceOptions") :
    getField (sanitizeQuestion (JsonV.obj fs)) k = getField (JsonV.obj fs) k ∧
    getField (sanitizeQuestion2 (JsonV.obj fs)) k = getField (JsonV.obj fs) k := by
  constructor
  · show lookupField (setFieldList (setFieldList fs "question" _) "multipleChoiceOptions" _) k
      = lookupField fs k
    rw [lookup_set_ne _ _ _ _ h2, lookup_set_ne _ _ _ _ h1]
  · show lookupField (setFieldList (setFieldList (setFieldList (setFieldList fs "question" _)
      "multipleChoiceOptions" _) "incorrectExplanations" _) "correctExplanation" _) k
      = lookupField fs k
    by_cases hce : k = "correctExplanation"
    · subst hce
      rw [lookup_set_eq]
      rfl
    · rw [lookup_set_ne _ _ _ _ hce]
      by_cases hie : k = "incorrectExplanations"
      · subst hie
        rw [lookup_set_eq]
        rfl
      · rw [lookup_set_ne _ _ _ _ hie, lookup_set_ne _ _ _ _ h2, lookup_set_ne _ _ _ _ h1]

/-- Witness for `sanitizer_frame`: the `correctAnswer` of a concrete unit
survives both sanitizers unchanged. -/
theorem sanitizer_frame_witness :
    getField (sanitizeQuestion q1Val) "correctAnswer" = getField q1Val "correctAnswer" ∧
    getField (sanitizeQuestion2 q1Val) "correctAnswer" = getField q1Val "correctAnswer" :=
  sanitizer_frame _ "correctAnswer" (by decide) (by decide)

/-- The `questions` property of a response body, when it is an array. -/
def questionsArr (v : JsonV) : Option (List JsonV) :=
  match getField v "questions" with
  | .arr qs => some qs
  | _ => none

/-- Claim C4, amended: on unparseable model text the non-streaming endpoint
returns 502 with the error body; when the parsed value has no `questions`
array it also returns 502; otherwise it returns 200 with the model's
`questions` array sanitized element-wise — the array's length is whatever
the model produced (only preserved by sanitization), never compared to the
requested count, and its elements are not validated. -/
theorem nonstream_amended (parse : String → Option JsonV) (text : String) :
    (parse text = none →
      (nonStreamBody parse text).1 = 502 ∧
      getField (nonStreamBody parse text).2 "error" = .str "Model did not return valid JSON") ∧
    (∀ p, parse text = some p → questionsArr p = none →
      (nonStreamBody parse text).1 = 502) ∧
    (∀ fs qs, parse text = some (.obj fs) → lookupField fs "questions" = .arr qs →
      (nonStreamBody parse text).1 = 200 ∧
      getField (nonStreamBody parse text).2 "questions" = .arr (qs.map sanitizeQuestion2) ∧
      (qs.map sanitizeQuestion2).length = qs.length) := by
  refine ⟨?_, ?_, ?_⟩
  · intro h
    simp [nonStreamBody, h, getField, lookupField]
  · intro p hp hq
    simp only [nonStreamBody, hp]
    split
    · rfl
    · cases h : getField p "questions" with
      | arr qs => rw [questionsArr, h] at hq; exact absurd hq (by simp)
      | null => simp [h]
      | boolean b => simp [h]
      | num q => simp [h]
      | str s => simp [h]
      | obj fs => simp [h]
      | undefined => simp [h]
  · intro fs qs hp hq
    have hgf : getField (JsonV.obj fs) "questions" = JsonV.arr qs := hq
    simp only [nonStreamBody, hp, hgf]
    refine ⟨rfl, ?_, by simp⟩
    show lookupField (setFieldList fs "questions" _) "questions" = _
    rw [lookup_set_eq]

/-- Witness for `nonstream_amended`: a text that is not JSON gives 502, and
the concrete `{"questions":[]}` text gives 200 with an empty sanitized
array. -/
theorem nonstream_amended_witness :
    ((nonStreamBody testParse "not json").1 = 502 ∧
      getField (nonStreamBody testParse "not json").2 "error" =
        .str "Model did not return valid JSON") ∧
    ((nonStreamBody testParse emptyQsText).1 = 200 ∧
      getField (nonStreamBody testParse emptyQsText).2 "questions" =
        .arr (([] : List JsonV).map sanitizeQuestion2) ∧
      (([] : List JsonV).map sanitizeQuestion2).length = ([] : List JsonV).length) :=
  ⟨(nonstream_amended testParse "not json").1 rfl,
    (nonstream_amended testParse emptyQsText).2.2 [("questions", JsonV.arr [])] []
      rfl rfl⟩

theorem snAux_append (a b cur : List Char) :
    snAux (a ++ b) cur =
      ((snAux a cur).1 ++ (snAux b ((snAux a cur).2.reverse)).1,
        (snAux b ((snAux a cur).2.reverse)).2) := by
  induction a generalizing cur with
  | nil => simp [snAux]
  | cons c a' ih =>
    by_cases h : c = '\n'
    · subst h
      simp [snAux, ih]
    · simp [snAux, h, ih]

theorem snAux_rem_no_nl (l : List Char) (cur : List Char) (h : '\n' ∉ cur) :
    '\n' ∉ (snAux l cur).2 := by
  induction l generalizing cur with
  | nil => simpa [snAux] using h
  | cons c l' ih =>
    by_cases hc : c = '\n'
    · subst hc
      simpa [snAux] using ih [] (by simp)
    · simp only [snAux, if_neg hc]
      exact ih (c :: cur) (by
        intro hm
        rcases List.mem_cons.mp hm with hh | hh
        · exact hc hh.symm
        · exact h hh)

theorem snAux_of_no_nl (r : List Char) (y cur : List Char) (h : '\n' ∉ r) :
    snAux (r ++ y) cur = snAux y (r.reverse ++ cur) := by
  induction r generalizing cur with
  | nil => simp
  | cons c r' ih =>
    have hc : c ≠ '\n' := fun hh => h (by simp [hh])
    have hr' : '\n' ∉ r' := fun hh => h (List.mem_cons_of_mem _ hh)
    simp only [List.cons_append, snAux, if_neg hc, List.append_eq]
    rw [ih (c :: cur) hr']
    simp

theorem splitNL_rem_no_nl (l : List Char) : '\n' ∉ (splitNL l).2 :=
  snAux_rem_no_nl l [] (by simp)

theorem splitNL_append (x y : List Char) :
    splitNL (x ++ y) =
      ((splitNL x).1 ++ (splitNL ((splitNL x).2 ++ y)).1,
        (splitNL ((splitNL x).2 ++ y)).2) := by
  have h1 : splitNL ((splitNL x).2 ++ y) = snAux y ((splitNL x).2.reverse) := by
    rw [splitNL, snAux_of_no_nl _ _ _ (splitNL_rem_no_nl x), List.append_nil]
  rw [h1, splitNL, splitNL, snAux_append]

/-- Trimmed, non-blank candidates from a list of raw extracted lines. -/
def lineCands (ls : List (List Char)) : List String :=
  (ls.map (fun l => jsTrim (⟨l⟩ : String))).filter (fun x => decide (x ≠ ""))

theorem dropWhile_head_not_ws (l : List Char) (c : Char) (t : List Char)
    (h : l.dropWhile isWsChar = c :: t) : isWsChar c = false := by
  induction l with
  | nil => simp at h
  | cons a l' ih =>
    rw [List.dropWhile_cons] at h
    by_cases ha : isWsChar a
    · rw [if_pos ha] at h
      exact ih h
    · rw [if_neg ha] at h
      cases h
      exact Bool.not_eq_true _ ▸ (by simpa using ha)

/-- Is the last character whitespace? -/
def lastWsB (l : List Char) : Bool :=
  match l.getLast? with
  | some c => isWsChar c
  | none => false

theorem trimRight_lastWs (l : List Char) : lastWsB (trimRight l) = false := by
  induction l with
  | nil => rfl
  | cons c t ih =>
    show lastWsB (match trimRight t with
      | [] => if isWsChar c then [] else [c]
      | r => c :: r) = false
    cases h : trimRight t with
    | nil =>
      by_cases hc : isWsChar c
      · simp [hc, lastWsB]
      · simp [hc, lastWsB, List.getLast?]
    | cons a r' =>
      rw [h] at ih
      simpa [lastWsB, List.getLast?_cons_cons] using ih

theorem trimRight_eq_self (l : List Char) (h : lastWsB l = false) : trimRight l = l := by
  induction l with
  | nil => rfl
  | cons c t ih =>
    cases t with
    | nil =>
      have hc : isWsChar c = false := by simpa [lastWsB, List.getLast?] using h
      simp [trimRight, hc]
    | cons a t' =>
      have ht : trimRight (a :: t') = a :: t' := by
        apply ih
        simpa [lastWsB, List.getLast?_cons_cons] using h
      show (match trimRight (a :: t') with
        | [] => if isWsChar c then [] else [c]
        | r => c :: r) = c :: a :: t'
      rw [ht]

theorem trimRight_head? (l : List Char) :
    trimRight l = [] ∨ (trimRight l).head? = l.head? := by
  cases l with
  | nil => exact Or.inl rfl
  | cons c t =>
    have he : trimRight (c :: t) = (match trimRight t with
      | [] => if isWsChar c then [] else [c]
      | r => c :: r) := rfl
    rw [he]
    cases h : trimRight t with
    | nil =>
      by_cases hc : isWsChar c
      · exact Or.inl (by simp [hc])
      · exact Or.inr (by simp [hc])
    | cons a r' => exact Or.inr (by simp)

theorem trimList_idem (l : List Char) : trimList (trimList l) = trimList l := by
  rw [trimList, trimList]
  cases htr : trimRight (l.dropWhile isWsChar) with
  | nil => simp [htr, trimRight]
  | cons c t =>
    rcases trimRight_head? (l.dropWhile isWsChar) with h | h
    · rw [htr] at h; simp at h
    · rw [htr] at h
      have hd : ∃ t', l.dropWhile isWsChar = c :: t' := by
        cases hl : l.dropWhile isWsChar with
        | nil => rw [hl] at h; simp at h
        | cons d t' =>
          rw [hl] at h
          simp at h
          exact ⟨t', by rw [h]⟩
      obtain ⟨t', ht'⟩ := hd
      have hc : isWsChar c = false := dropWhile_head_not_ws l c t' ht'
      rw [List.dropWhile_cons, if_neg (by simp [hc])]
      have : lastWsB (c :: t) = false := htr ▸ trimRight_lastWs (l.dropWhile isWsChar)
      exact trimRight_eq_self _ this

theorem jsTrim_idem (s : String) : jsTrim (jsTrim s) = jsTrim s := by
  show (⟨trimList (⟨trimList s.data⟩ : String).data⟩ : String) = ⟨trimList s.data⟩
  rw [show (⟨trimList s.data⟩ : String).data = trimList s.data from rfl, trimList_idem]

theorem feedChunk_eq (acc : List String) (buf : String) (chunk : String) :
    feedChunk (acc, buf) chunk =
      (acc ++ lineCands (splitNL (buf.data ++ chunk.data)).1,
        (⟨(splitNL (buf.data ++ chunk.data)).2⟩ : String)) := by
  simp [feedChunk, lineCands, String.data_append]

/-- Concatenation of all stream chunks. -/
def concatChunks : List String → String
  | [] => ""
  | c :: cs => c ++ concatChunks cs

theorem frame_fold (chunks : List String) (acc : List String) (buf : String)
    (hb : '\n' ∉ buf.data) :
    chunks.foldl feedChunk (acc, buf) =
      (acc ++ lineCands (splitNL (buf.data ++ (concatChunks chunks).data)).1,
        (⟨(splitNL (buf.data ++ (concatChunks chunks).data)).2⟩ : String)) := by
  induction chunks generalizing acc buf with
  | nil =>
    have h1 : splitNL (buf.data ++ (concatChunks []).data) = ([], buf.data) := by
      have hdn : (concatChunks []).data = ([] : List Char) := rfl
      have h2 := snAux_of_no_nl buf.data [] [] hb
      rw [List.append_nil] at h2
      rw [hdn, List.append_nil, splitNL, h2]
      simp [snAux]
    simp [h1, lineCands]
  | cons c cs ih =>
    show List.foldl feedChunk (feedChunk (acc, buf) c) cs = _
    rw [feedChunk_eq]
    rw [ih _ _ (by
      exact snAux_rem_no_nl (buf.data ++ c.data) [] (by simp))]
    have hsplit := splitNL_append (buf.data ++ c.data) (concatChunks cs).data
    have hdata : (concatChunks (c :: cs)).data = c.data ++ (concatChunks cs).data := by
      show (c ++ concatChunks cs).data = _
      rw [String.data_append]
    rw [hdata, ← List.append_assoc]
    rw [hsplit]
    simp [lineCands, List.append_assoc]

/-- Canonical form of the framer: candidates depend only on the
concatenation of the chunks. -/
theorem frame_eq_canonical (chunks : List String) :
    frameCandidates chunks =
      lineCands (splitNL (concatChunks chunks).data).1 ++
        (if jsTrim (⟨(splitNL (concatChunks chunks).data).2⟩ : String) ≠ "" then
          ndLines (⟨(splitNL (concatChunks chunks).data).2⟩ : String)
        else []) := by
  rw [frameCandidates, frame_fold chunks [] "" (by simp [String.data])]
  simp

/-- Members of `lineCands` are trimmed and non-blank. -/
theorem lineCands_mem (ls : List (List Char)) (c : String) (h : c ∈ lineCands ls) :
    jsTrim c = c ∧ c ≠ "" := by
  rw [lineCands, List.mem_filter] at h
  obtain ⟨hm, hne⟩ := h
  rw [List.mem_map] at hm
  obtain ⟨l, _, hl⟩ := hm
  refine ⟨?_, by simpa using hne⟩
  rw [← hl, jsTrim_idem]

/-- Members of `ndLines` are trimmed and non-blank. -/
theorem ndLines_mem (s : String) (c : String) (h : c ∈ ndLines s) :
    jsTrim c = c ∧ c ≠ "" := by
  rw [ndLines, List.mem_filter] at h
  obtain ⟨hm, hne⟩ := h
  rw [List.mem_map] at hm
  obtain ⟨l, _, hl⟩ := hm
  refine ⟨?_, by simpa using hne⟩
  rw [← hl, jsTrim_idem]

/-- Claim C9, amended: the framer's candidates depend only on the chunk
concatenation — any chunking of "A\nB\nC" yields exactly ["A","B","C"] —
but chunk boundaries are not delimiters: "A\nB" then "C\n" yields
["A","BC"].  Every candidate is trimmed and non-blank (blank candidates are
discarded silently). -/
theorem framer_amended :
    (∀ chunks : List String, concatChunks chunks = "A\nB\nC" →
      frameCandidates chunks = ["A", "B", "C"]) ∧
    frameCandidates ["A\nB", "C\n"] = ["A", "BC"] ∧
    (∀ (chunks : List String) (c : String),
      c ∈ frameCandidates chunks → jsTrim c = c ∧ c ≠ "") := by
  refine ⟨?_, by decide, ?_⟩
  · intro chunks hc
    rw [frame_eq_canonical, hc]
    decide
  · intro chunks c hc
    rw [frame_eq_canonical] at hc
    rcases List.mem_append.mp hc with h | h
    · exact lineCands_mem _ _ h
    · by_cases hne : jsTrim (⟨(splitNL (concatChunks chunks).data).2⟩ : String) ≠ ""
      · rw [if_pos hne] at h
        exact ndLines_mem _ _ h
      · rw [if_neg hne] at h
        simp at h

/-- Witness for `framer_amended`: the chunking ["A\nB", "\nC"] of "A\nB\nC",
and membership of "A" among the candidates of ["A\nB", "C\n"]. -/
theorem framer_amended_witness :
    frameCandidates ["A\nB", "\nC"] = ["A", "B", "C"] ∧
    (jsTrim "A" = "A" ∧ "A" ≠ "") :=
  ⟨framer_amended.1 ["A\nB", "\nC"] (by decide),
    framer_amended.2.2 ["A\nB", "C\n"] "A" (by decide)⟩

theorem isCI_word {c lo hi : Char} (hlo : isWordChar lo = true)
    (hhi : isWordChar hi = true) (h : isCI c lo hi = true) : isWordChar c = true := by
  simp only [isCI, Bool.or_eq_true, decide_eq_true_eq] at h
  rcases h with h | h <;> subst h <;> assumption

theorem isM_pw_true (l : List Char) : isM true l = false := by
  rcases l with - | ⟨c1, - | ⟨c2, - | ⟨c3, - | ⟨c4, - | ⟨c5, rest⟩⟩⟩⟩⟩ <;> rfl

theorem isM_short (pw : Bool) (l : List Char) (h : l.length < 5) : isM pw l = false := by
  rcases l with - | ⟨c1, - | ⟨c2, - | ⟨c3, - | ⟨c4, - | ⟨c5, rest⟩⟩⟩⟩⟩
  · rfl
  · rfl
  · rfl
  · rfl
  · rfl
  · exfalso
    simp at h
    omega

theorem isM_decomp (pw : Bool) (c1 c2 c3 c4 c5 : Char) (r : List Char) :
    isM pw (c1 :: c2 :: c3 :: c4 :: c5 :: r) =
      (!pw && isCI c1 'b' 'B' && isCI c2 'l' 'L' && isCI c3 'a' 'A' &&
        isCI c4 'n' 'N' && isCI c5 'k' 'K' && nbndOK r) := rfl

theorem isM_head_not (pw : Bool) (c : Char) (rest : List Char)
    (h : isCI c 'b' 'B' = false) : isM pw (c :: rest) = false := by
  rcases rest with - | ⟨c2, - | ⟨c3, - | ⟨c4, - | ⟨c5, r⟩⟩⟩⟩
  · rfl
  · rfl
  · rfl
  · rfl
  · rw [isM_decomp]
    simp [h]

theorem isM_head_nonword (pw : Bool) (c : Char) (rest : List Char)
    (h : isWordChar c = false) : isM pw (c :: rest) = false := by
  apply isM_head_not
  cases hci : isCI c 'b' 'B'
  · rfl
  · exact absurd (isCI_word (by decide) (by decide) hci) (by simp [h])

theorem isM_kill2 (pw : Bool) (c1 c2 : Char) (r : List Char)
    (h : isCI c2 'l' 'L' = false) : isM pw (c1 :: c2 :: r) = false := by
  rcases r with - | ⟨c3, - | ⟨c4, - | ⟨c5, r'⟩⟩⟩
  · rfl
  · rfl
  · rfl
  · rw [isM_decomp]
    simp [h]

theorem isM_kill3 (pw : Bool) (c1 c2 c3 : Char) (r : List Char)
    (h : isCI c3 'a' 'A' = false) : isM pw (c1 :: c2 :: c3 :: r) = false := by
  rcases r with - | ⟨c4, - | ⟨c5, r'⟩⟩
  · rfl
  · rfl
  · rw [isM_decomp]
    simp [h]

theorem isM_kill4 (pw : Bool) (c1 c2 c3 c4 : Char) (r : List Char)
    (h : isCI c4 'n' 'N' = false) : isM pw (c1 :: c2 :: c3 :: c4 :: r) = false := by
  rcases r with - | ⟨c5, r'⟩
  · rfl
  · rw [isM_decomp]
    simp [h]

theorem isM_kill5 (pw : Bool) (c1 c2 c3 c4 c5 : Char) (r : List Char)
    (h : isCI c5 'k' 'K' = false) : isM pw (c1 :: c2 :: c3 :: c4 :: c5 :: r) = false := by
  rw [isM_decomp]
  simp [h]

theorem isM_kill_nbnd (pw : Bool) (c1 c2 c3 c4 c5 : Char) (r : List Char)
    (h : nbndOK r = false) : isM pw (c1 :: c2 :: c3 :: c4 :: c5 :: r) = false := by
  rw [isM_decomp]
  simp [h]

theorem nbnd_false (rest : List Char) (h : nbndOK rest = false) :
    ∃ d r, rest = d :: r ∧ isWordChar d = true := by
  cases rest with
  | nil => simp [nbndOK] at h
  | cons d r => exact ⟨d, r, rfl, by simpa [nbndOK] using h⟩

theorem isM_shape (pw : Bool) (l : List Char) (h : isM pw l = true) :
    ∃ c1 c2 c3 c4 c5 rest5, l = c1 :: c2 :: c3 :: c4 :: c5 :: rest5 ∧ pw = false ∧
      isCI c1 'b' 'B' = true ∧ isCI c2 'l' 'L' = true ∧ isCI c3 'a' 'A' = true ∧
      isCI c4 'n' 'N' = true ∧ isCI c5 'k' 'K' = true ∧ nbndOK rest5 = true := by
  rcases l with - | ⟨c1, - | ⟨c2, - | ⟨c3, - | ⟨c4, - | ⟨c5, rest⟩⟩⟩⟩⟩ <;>
    simp only [isM, Bool.and_eq_true, Bool.not_eq_true'] at h
  · exact absurd h (by simp)
  · exact absurd h (by simp)
  · exact absurd h (by simp)
  · exact absurd h (by simp)
  · exact absurd h (by simp)
  · obtain ⟨⟨⟨⟨⟨⟨h0, hb⟩, hl⟩, ha⟩, hn⟩, hk⟩, hnb⟩ := h
    exact ⟨c1, c2, c3, c4, c5, rest, rfl, h0, hb, hl, ha, hn, hk, hnb⟩

theorem hasBlank_cons (pw : Bool) (c : Char) (rest : List Char) :
    hasBlankWord pw (c :: rest) =
      (isM pw (c :: rest) || hasBlankWord (isWordChar c) rest) := rfl

theorem hasBlank_nil (pw : Bool) : hasBlankWord pw [] = false := rfl

theorem removeBla_skip (c : Char) (rest : List Char) (pw : Bool) (m : Nat) :
    removeBlankL (c :: rest) pw (m + 1) = removeBlankL rest (isWordChar c) m := rfl

theorem removeBla_nomatch (c : Char) (rest : List Char) (pw : Bool)
    (h : isM pw (c :: rest) = false) :
    removeBlankL (c :: rest) pw 0 = c :: removeBlankL rest (isWordChar c) 0 := by
  show (if isM pw (c :: rest) = true then removeBlankL rest true 4
    else c :: removeBlankL rest (isWordChar c) 0) = _
  rw [if_neg (by simp [h])]

theorem removeBla_true_cons (x : Char) (xs : List Char) :
    removeBlankL (x :: xs) true 0 = x :: removeBlankL xs (isWordChar x) 0 :=
  removeBla_nomatch x xs true (isM_pw_true _)

theorem removeBla_match (pw : Bool) (c1 c2 c3 c4 c5 : Char) (rest5 : List Char)
    (h : isM pw (c1 :: c2 :: c3 :: c4 :: c5 :: rest5) = true)
    (hw5 : isWordChar c5 = true) :
    removeBlankL (c1 :: c2 :: c3 :: c4 :: c5 :: rest5) pw 0 =
      removeBlankL rest5 true 0 := by
  show (if isM pw (c1 :: c2 :: c3 :: c4 :: c5 :: rest5) = true
      then removeBlankL (c2 :: c3 :: c4 :: c5 :: rest5) true 4
      else _) = _
  rw [if_pos h]
  show removeBlankL rest5 (isWordChar c5) 0 = removeBlankL rest5 true 0
  rw [hw5]

theorem removeBla_id (l : List Char) : ∀ pw, hasBlankWord pw l = false →
    removeBlankL l pw 0 = l := by
  induction l with
  | nil => intro pw _; rfl
  | cons c rest ih =>
    intro pw h
    rw [hasBlank_cons, Bool.or_eq_false_iff] at h
    rw [removeBla_nomatch c rest pw h.1, ih (isWordChar c) h.2]

/-- The lank-prefix transfer: if `/\bblank\b/i` does not match at a position,
it still does not match there after the remainder of the string has been
scrubbed. -/
theorem isM_transfer_removeBla (pw : Bool) (c : Char) (rest : List Char)
    (hm : isM pw (c :: rest) = false) :
    isM pw (c :: removeBlankL rest (isWordChar c) 0) = false := by
  cases pw with
  | true => exact isM_pw_true _
  | false =>
    cases hcb : isCI c 'b' 'B' with
    | false => exact isM_head_not _ _ _ hcb
    | true =>
      have hwc : isWordChar c = true := isCI_word (by decide) (by decide) hcb
      rw [hwc]
      rcases rest with - | ⟨r1, - | ⟨r2, - | ⟨r3, - | ⟨r4, rest4⟩⟩⟩⟩
      · exact isM_short _ _ (by simp [removeBlankL])
      · rw [removeBla_true_cons]
        exact isM_short _ _ (by simp [removeBlankL])
      · rw [removeBla_true_cons]
        cases h1 : isCI r1 'l' 'L' with
        | false => exact isM_kill2 _ _ _ _ h1
        | true =>
          rw [isCI_word (by decide) (by decide) h1, removeBla_true_cons]
          exact isM_short _ _ (by simp [removeBlankL])
      · rw [removeBla_true_cons]
        cases h1 : isCI r1 'l' 'L' with
        | false => exact isM_kill2 _ _ _ _ h1
        | true =>
          rw [isCI_word (by decide) (by decide) h1, removeBla_true_cons]
          cases h2 : isCI r2 'a' 'A' with
          | false => exact isM_kill3 _ _ _ _ _ h2
          | true =>
            rw [isCI_word (by decide) (by decide) h2, removeBla_true_cons]
            exact isM_short _ _ (by simp [removeBlankL])
      · rw [removeBla_true_cons]
        cases h1 : isCI r1 'l' 'L' with
        | false => exact isM_kill2 _ _ _ _ h1
        | true =>
          rw [isCI_word (by decide) (by decide) h1, removeBla_true_cons]
          cases h2 : isCI r2 'a' 'A' with
          | false => exact isM_kill3 _ _ _ _ _ h2
          | true =>
            rw [isCI_word (by decide) (by decide) h2, removeBla_true_cons]
            cases h3 : isCI r3 'n' 'N' with
            | false => exact isM_kill4 _ _ _ _ _ _ h3
            | true =>
              rw [isCI_word (by decide) (by decide) h3, removeBla_true_cons]
              cases h4 : isCI r4 'k' 'K' with
              | false => exact isM_kill5 _ _ _ _ _ _ _ h4
              | true =>
                rw [isCI_word (by decide) (by decide) h4]
                have hnb : nbndOK rest4 = false := by
                  cases hv : nbndOK rest4 with
                  | false => rfl
                  | true =>
                    rw [isM_decomp] at hm
                    simp [hcb, h1, h2, h3, h4, hv] at hm
                obtain ⟨d, r5, hdr, hwd⟩ := nbnd_false rest4 hnb
                subst hdr
                rw [removeBla_true_cons]
                exact isM_kill_nbnd _ _ _ _ _ _ _ (by simp [nbndOK, hwd])

/-- Scrubbing leaves no whole-word occurrence of `blank` behind. -/
theorem removeBla_noBlank : ∀ n (l : List Char) (pw : Bool), l.length ≤ n →
    hasBlankWord pw (removeBlankL l pw 0) = false := by
  intro n
  induction n with
  | zero =>
    intro l pw hl
    have hnil : l = [] := List.eq_nil_of_length_eq_zero (by omega)
    subst hnil
    rfl
  | succ n ih =>
    intro l pw hl
    cases l with
    | nil => rfl
    | cons c rest =>
      by_cases hm : isM pw (c :: rest) = true
      · obtain ⟨c1, c2, c3, c4, c5, rest5, heq, hpw, hb, hl2, ha, hn2, hk, hnb⟩ :=
          isM_shape pw _ hm
        have hw5 : isWordChar c5 = true := isCI_word (by decide) (by decide) hk
        rw [heq] at hm hl ⊢
        rw [removeBla_match pw c1 c2 c3 c4 c5 rest5 hm hw5]
        have hlen5 : rest5.length ≤ n := by simp at hl; omega
        have hIH := ih rest5 true hlen5
        cases hr5 : rest5 with
        | nil => rfl
        | cons d r5 =>
          rw [hr5] at hnb hIH
          have hd : isWordChar d = false := by simpa [nbndOK] using hnb
          rw [removeBla_true_cons d r5] at hIH ⊢
          rw [hasBlank_cons] at hIH ⊢
          rw [Bool.or_eq_false_iff] at hIH ⊢
          exact ⟨isM_head_nonword pw d _ hd, hIH.2⟩
      · have hm' : isM pw (c :: rest) = false := by
          cases hval : isM pw (c :: rest)
          · rfl
          · exact absurd hval hm
        rw [removeBla_nomatch c rest pw hm']
        rw [hasBlank_cons, Bool.or_eq_false_iff]
        refine ⟨isM_transfer_removeBla pw c rest hm', ?_⟩
        exact ih rest (isWordChar c) (by simp at hl; omega)

/-- No two adjacent whitespace characters. -/
def noAdjWs : List Char → Bool
  | [] => true
  | [_] => true
  | a :: b :: t => (!(isWsChar a && isWsChar b)) && noAdjWs (b :: t)

/-- The head, if any, is not whitespace. -/
def headNW : List Char → Bool
  | [] => true
  | c :: _ => !isWsChar c

theorem noAdj_cons_of (c0 : Char) (X : List Char) (hX : noAdjWs X = true)
    (hh : headNW X = true ∨ isWsChar c0 = false) : noAdjWs (c0 :: X) = true := by
  cases X with
  | nil => rfl
  | cons x t =>
    show ((!(isWsChar c0 && isWsChar x)) && noAdjWs (x :: t)) = true
    rw [hX]
    rcases hh with hh | hh
    · have hx : isWsChar x = false := by simpa [headNW] using hh
      simp [hx]
    · simp [hh]

theorem noAdj_tail (c : Char) (t : List Char) (h : noAdjWs (c :: t) = true) :
    noAdjWs t = true := by
  cases t with
  | nil => rfl
  | cons d r =>
    have h2 : ((!(isWsChar c && isWsChar d)) && noAdjWs (d :: r)) = true := h
    simp only [Bool.and_eq_true] at h2
    exact h2.2

theorem collapse_true_ws (c : Char) (rest : List Char) (h : isWsChar c = true) :
    collapseRuns (c :: rest) true = collapseRuns rest true := by
  show (if isWsChar c = true then collapseRuns rest true else _) = _
  rw [if_pos h]

theorem collapse_true_nonws (c : Char) (rest : List Char) (h : isWsChar c = false) :
    collapseRuns (c :: rest) true = c :: collapseRuns rest false := by
  show (if isWsChar c = true then _ else c :: collapseRuns rest false) = _
  rw [if_neg (by simp [h])]

theorem collapse_false_nonws (c : Char) (rest : List Char) (h : isWsChar c = false) :
    collapseRuns (c :: rest) false = c :: collapseRuns rest false := by
  show (if isWsChar c = true then _ else c :: collapseRuns rest false) = _
  rw [if_neg (by simp [h])]

theorem collapse_false_trailing (c : Char) (h : isWsChar c = true) :
    collapseRuns [c] false = [c] := by
  show (if isWsChar c = true then _ else _) = _
  rw [if_pos h]

theorem collapse_false_run (c d : Char) (r : List Char)
    (h : isWsChar c = true) (hd : isWsChar d = true) :
    collapseRuns (c :: d :: r) false = ' ' :: collapseRuns (d :: r) true := by
  show (if isWsChar c = true then
      (if isWsChar d = true then ' ' :: collapseRuns (d :: r) true
        else c :: collapseRuns (d :: r) false)
    else _) = _
  rw [if_pos h, if_pos hd]

theorem collapse_false_single (c d : Char) (r : List Char)
    (h : isWsChar c = true) (hd : isWsChar d = false) :
    collapseRuns (c :: d :: r) false = c :: collapseRuns (d :: r) false := by
  show (if isWsChar c = true then
      (if isWsChar d = true then ' ' :: collapseRuns (d :: r) true
        else c :: collapseRuns (d :: r) false)
    else _) = _
  rw [if_pos h, if_neg (by simp [hd])]

theorem collapse_len : ∀ (l : List Char) (m : Bool),
    (collapseRuns l m).length ≤ l.length := by
  intro l
  induction l with
  | nil => intro m; cases m <;> exact le_refl 0
  | cons c rest ih =>
    intro m
    cases m with
    | true =>
      cases hc : isWsChar c with
      | true =>
        rw [collapse_true_ws c rest hc]
        exact le_trans (ih true) (Nat.le_succ _)
      | false =>
        rw [collapse_true_nonws c rest hc]
        simpa using ih false
    | false =>
      cases hc : isWsChar c with
      | false =>
        rw [collapse_false_nonws c rest hc]
        simpa using ih false
      | true =>
        cases rest with
        | nil => rw [collapse_false_trailing c hc]
        | cons d r =>
          cases hd : isWsChar d with
          | true =>
            rw [collapse_false_run c d r hc hd]
            simpa using ih true
          | false =>
            rw [collapse_false_single c d r hc hd]
            simpa using ih false

theorem collapse_noAdj (l : List Char) :
    noAdjWs (collapseRuns l false) = true ∧
    (noAdjWs (collapseRuns l true) = true ∧ headNW (collapseRuns l true) = true) := by
  induction l with
  | nil => exact ⟨rfl, rfl, rfl⟩
  | cons c rest ih =>
    obtain ⟨ihF, ihT, ihH⟩ := ih
    constructor
    · cases hc : isWsChar c with
      | false =>
        rw [collapse_false_nonws c rest hc]
        exact noAdj_cons_of _ _ ihF (Or.inr hc)
      | true =>
        cases rest with
        | nil => rw [collapse_false_trailing c hc]; rfl
        | cons d r =>
          cases hd : isWsChar d with
          | true =>
            rw [collapse_false_run c d r hc hd]
            exact noAdj_cons_of _ _ ihT (Or.inl ihH)
          | false =>
            rw [collapse_false_single c d r hc hd]
            apply noAdj_cons_of _ _ ihF
            left
            rw [collapse_false_nonws d r hd]
            show (!isWsChar d) = true
            simp [hd]
    · cases hc : isWsChar c with
      | true =>
        rw [collapse_true_ws c rest hc]
        exact ⟨ihT, ihH⟩
      | false =>
        rw [collapse_true_nonws c rest hc]
        refine ⟨noAdj_cons_of _ _ ihF (Or.inr hc), ?_⟩
        show (!isWsChar c) = true
        simp [hc]

theorem collapse_id (l : List Char) (h : noAdjWs l = true) :
    collapseRuns l false = l := by
  induction l with
  | nil => rfl
  | cons c rest ih =>
    cases hc : isWsChar c with
    | false =>
      rw [collapse_false_nonws c rest hc, ih (noAdj_tail c rest h)]
    | true =>
      cases rest with
      | nil => exact collapse_false_trailing c hc
      | cons d r =>
        have hpair : ((!(isWsChar c && isWsChar d)) && noAdjWs (d :: r)) = true := h
        simp only [Bool.and_eq_true] at hpair
        obtain ⟨h1, h2⟩ := hpair
        have hd : isWsChar d = false := by
          cases hdv : isWsChar d
          · rfl
          · rw [hc, hdv] at h1; simp at h1
        rw [collapse_false_single c d r hc hd, ih h2]

theorem collapse_cons_head (x : Char) (xs : List Char) :
    ∃ h t, collapseRuns (x :: xs) false = h :: t ∧ (h = x ∨ h = ' ') := by
  cases hx : isWsChar x with
  | false => exact ⟨x, _, collapse_false_nonws x xs hx, Or.inl rfl⟩
  | true =>
    cases xs with
    | nil => exact ⟨x, [], collapse_false_trailing x hx, Or.inl rfl⟩
    | cons d r =>
      cases hd : isWsChar d with
      | true => exact ⟨' ', _, collapse_false_run x d r hx hd, Or.inr rfl⟩
      | false => exact ⟨x, _, collapse_false_single x d r hx hd, Or.inl rfl⟩

/-- The lank-prefix transfer for whitespace collapsing. -/
theorem isM_transfer_collapse (pw : Bool) (c : Char) (rest : List Char)
    (hm : isM pw (c :: rest) = false) :
    isM pw (c :: collapseRuns rest false) = false := by
  cases pw with
  | true => exact isM_pw_true _
  | false =>
    cases hcb : isCI c 'b' 'B' with
    | false => exact isM_head_not _ _ _ hcb
    | true =>
      rcases rest with - | ⟨r1, - | ⟨r2, - | ⟨r3, - | ⟨r4, rest4⟩⟩⟩⟩
      · exact isM_short _ _ (by simp [collapseRuns])
      · refine isM_short _ _ ?_
        have := collapse_len [r1] false
        simp at this ⊢
        omega
      · refine isM_short _ _ ?_
        have := collapse_len [r1, r2] false
        simp at this ⊢
        omega
      · refine isM_short _ _ ?_
        have := collapse_len [r1, r2, r3] false
        simp at this ⊢
        omega
      · cases h1 : isCI r1 'l' 'L' with
        | false =>
          obtain ⟨h0, t0, he, hor⟩ := collapse_cons_head r1 (r2 :: r3 :: r4 :: rest4)
          rw [he]
          apply isM_kill2
          rcases hor with rfl | rfl
          · exact h1
          · decide
        | true =>
          have hw1 : isWsChar r1 = false :=
            not_wsChar_of_wordChar (isCI_word (by decide) (by decide) h1)
          rw [collapse_false_nonws r1 _ hw1]
          cases h2 : isCI r2 'a' 'A' with
          | false =>
            obtain ⟨h0, t0, he, hor⟩ := collapse_cons_head r2 (r3 :: r4 :: rest4)
            rw [he]
            apply isM_kill3
            rcases hor with rfl | rfl
            · exact h2
            · decide
          | true =>
            have hw2 : isWsChar r2 = false :=
              not_wsChar_of_wordChar (isCI_word (by decide) (by decide) h2)
            rw [collapse_false_nonws r2 _ hw2]
            cases h3 : isCI r3 'n' 'N' with
            | false =>
              obtain ⟨h0, t0, he, hor⟩ := collapse_cons_head r3 (r4 :: rest4)
              rw [he]
              apply isM_kill4
              rcases hor with rfl | rfl
              · exact h3
              · decide
            | true =>
              have hw3 : isWsChar r3 = false :=
                not_wsChar_of_wordChar (isCI_word (by decide) (by decide) h3)
              rw [collapse_false_nonws r3 _ hw3]
              cases h4 : isCI r4 'k' 'K' with
              | false =>
                obtain ⟨h0, t0, he, hor⟩ := collapse_cons_head r4 rest4
                rw [he]
                apply isM_kill5
                rcases hor with rfl | rfl
                · exact h4
                · decide
              | true =>
                have hw4 : isWsChar r4 = false :=
                  not_wsChar_of_wordChar (isCI_word (by decide) (by decide) h4)
                rw [collapse_false_nonws r4 _ hw4]
                have hnb : nbndOK rest4 = false := by
                  cases hv : nbndOK rest4 with
                  | false => rfl
                  | true =>
                    rw [isM_decomp] at hm
                    simp [hcb, h1, h2, h3, h4, hv] at hm
                obtain ⟨d, r5, hdr, hwd⟩ := nbnd_false rest4 hnb
                subst hdr
                have hwsd : isWsChar d = false := not_wsChar_of_wordChar hwd
                rw [collapse_false_nonws d r5 hwsd]
                exact isM_kill_nbnd _ _ _ _ _ _ _ (by simp [nbndOK, hwd])

/-- Scrubbed text stays free of whole-word `blank` through whitespace
collapsing (both run modes). -/
theorem collapse_hasBlank : ∀ n (l : List Char), l.length ≤ n →
    (∀ pw, hasBlankWord pw l = false → hasBlankWord pw (collapseRuns l false) = false) ∧
    (hasBlankWord false l = false → hasBlankWord false (collapseRuns l true) = false) := by
  intro n
  induction n with
  | zero =>
    intro l hl
    have hnil : l = [] := List.eq_nil_of_length_eq_zero (by omega)
    subst hnil
    exact ⟨fun pw h => h, fun h => h⟩
  | succ n ih =>
    intro l hl
    cases l with
    | nil => exact ⟨fun pw h => h, fun h => h⟩
    | cons c rest =>
      have hlen : rest.length ≤ n := by simp at hl; omega
      constructor
      · intro pw h
        rw [hasBlank_cons, Bool.or_eq_false_iff] at h
        obtain ⟨hm, ht⟩ := h
        cases hc : isWsChar c with
        | false =>
          rw [collapse_false_nonws c rest hc, hasBlank_cons, Bool.or_eq_false_iff]
          exact ⟨isM_transfer_collapse pw c rest hm, (ih rest hlen).1 (isWordChar c) ht⟩
        | true =>
          have hwc : isWordChar c = false := wsChar_not_wordChar hc
          rw [hwc] at ht
          cases rest with
          | nil =>
            rw [collapse_false_trailing c hc, hasBlank_cons, Bool.or_eq_false_iff]
            exact ⟨isM_head_nonword pw c _ hwc, hasBlank_nil _⟩
          | cons d r =>
            cases hd : isWsChar d with
            | true =>
              rw [collapse_false_run c d r hc hd, hasBlank_cons, Bool.or_eq_false_iff]
              refine ⟨isM_head_nonword pw ' ' _ (by decide), ?_⟩
              rw [show isWordChar ' ' = false from by decide]
              exact (ih (d :: r) hlen).2 ht
            | false =>
              rw [collapse_false_single c d r hc hd, hasBlank_cons, Bool.or_eq_false_iff]
              refine ⟨isM_head_nonword pw c _ hwc, ?_⟩
              rw [hwc]
              exact (ih (d :: r) hlen).1 false ht
      · intro h
        rw [hasBlank_cons, Bool.or_eq_false_iff] at h
        obtain ⟨hm, ht⟩ := h
        cases hc : isWsChar c with
        | true =>
          rw [collapse_true_ws c rest hc]
          rw [wsChar_not_wordChar hc] at ht
          exact (ih rest hlen).2 ht
        | false =>
          rw [collapse_true_nonws c rest hc, hasBlank_cons, Bool.or_eq_false_iff]
          exact ⟨isM_transfer_collapse false c rest hm, (ih rest hlen).1 (isWordChar c) ht⟩

theorem hasBlank_dropWhile (l : List Char) (h : hasBlankWord false l = false) :
    hasBlankWord false (l.dropWhile isWsChar) = false := by
  induction l with
  | nil => exact h
  | cons c t ih =>
    rw [List.dropWhile_cons]
    cases hc : isWsChar c with
    | false => simpa [hc] using h
    | true =>
      rw [if_pos (by simp [hc])]
      apply ih
      rw [hasBlank_cons, Bool.or_eq_false_iff] at h
      have h2 := h.2
      rw [wsChar_not_wordChar hc] at h2
      exact h2

theorem hasBlank_append_ws (l s : List Char) (pw : Bool)
    (hs : ∀ x ∈ s, isWsChar x = true) (h : hasBlankWord pw l = true) :
    hasBlankWord pw (l ++ s) = true := by
  induction l generalizing pw with
  | nil => rw [hasBlank_nil] at h; exact absurd h (by simp)
  | cons c t ih =>
    rw [hasBlank_cons, Bool.or_eq_true] at h
    rcases h with h | h
    · obtain ⟨c1, c2, c3, c4, c5, rest5, heq, hpw, hb, hl2, ha, hn2, hk, hnb⟩ :=
        isM_shape pw _ h
      rw [List.cons_append, hasBlank_cons, Bool.or_eq_true]
      left
      have heq2 : c :: (t ++ s) = c1 :: c2 :: c3 :: c4 :: c5 :: (rest5 ++ s) := by
        have hx : (c :: t) ++ s = c1 :: c2 :: c3 :: c4 :: c5 :: (rest5 ++ s) := by
          rw [heq]
          simp
        simpa using hx
      rw [heq2, isM_decomp]
      have hnb2 : nbndOK (rest5 ++ s) = true := by
        cases rest5 with
        | nil =>
          cases s with
          | nil => rfl
          | cons x xs =>
            have hx : isWsChar x = true := hs x (by simp)
            simp [nbndOK, wsChar_not_wordChar hx]
        | cons d r => simpa [nbndOK] using hnb
      simp [hpw, hb, hl2, ha, hn2, hk, hnb2]
    · rw [List.cons_append, hasBlank_cons, Bool.or_eq_true]
      right
      exact ih (isWordChar c) h

theorem hasBlank_of_append_ws (l s : List Char) (pw : Bool)
    (hs : ∀ x ∈ s, isWsChar x = true) (h : hasBlankWord pw (l ++ s) = false) :
    hasBlankWord pw l = false := by
  cases hv : hasBlankWord pw l with
  | false => rfl
  | true => rw [hasBlank_append_ws l s pw hs hv] at h; exact h

theorem trimRight_decomp (l : List Char) :
    ∃ s, l = trimRight l ++ s ∧ ∀ x ∈ s, isWsChar x = true := by
  induction l with
  | nil => exact ⟨[], rfl, by simp⟩
  | cons c t ih =>
    obtain ⟨s, hs, hws⟩ := ih
    have he : trimRight (c :: t) = (match trimRight t with
      | [] => if isWsChar c then [] else [c]
      | r => c :: r) := rfl
    cases h : trimRight t with
    | nil =>
      rw [h] at hs
      cases hc : isWsChar c with
      | true =>
        refine ⟨c :: t, ?_, ?_⟩
        · rw [he, h, if_pos (by simp [hc])]
          rfl
        · intro x hx
          rcases List.mem_cons.mp hx with rfl | hx
          · exact hc
          · rw [show t = s from hs] at hx
            exact hws x hx
      | false =>
        refine ⟨s, ?_, hws⟩
        rw [he, h, if_neg (by simp [hc])]
        have hts : t = s := by simpa using hs
        rw [hts]
        rfl
    | cons a r =>
      refine ⟨s, ?_, hws⟩
      rw [he, h]
      show c :: t = c :: ((a :: r) ++ s)
      rw [← h, ← hs]

theorem noAdj_append_left (x y : List Char) (h : noAdjWs (x ++ y) = true) :
    noAdjWs x = true := by
  induction x with
  | nil => rfl
  | cons a x' ih =>
    cases x' with
    | nil => rfl
    | cons b t =>
      have hx : ((!(isWsChar a && isWsChar b)) && noAdjWs (b :: (t ++ y))) = true := h
      simp only [Bool.and_eq_true] at hx
      show ((!(isWsChar a && isWsChar b)) && noAdjWs (b :: t)) = true
      rw [hx.1, ih hx.2]
      rfl

theorem noAdj_dropWhile (l : List Char) (h : noAdjWs l = true) :
    noAdjWs (l.dropWhile isWsChar) = true := by
  induction l with
  | nil => rfl
  | cons c t ih =>
    rw [List.dropWhile_cons]
    cases hc : isWsChar c with
    | false => simpa [hc] using h
    | true =>
      rw [if_pos (by simp [hc])]
      exact ih (noAdj_tail c t h)

theorem trimList_noAdj (l : List Char) (h : noAdjWs l = true) :
    noAdjWs (trimList l) = true := by
  rw [trimList]
  obtain ⟨s, hs, -⟩ := trimRight_decomp (l.dropWhile isWsChar)
  have hw : noAdjWs (l.dropWhile isWsChar) = true := noAdj_dropWhile l h
  rw [hs] at hw
  exact noAdj_append_left _ _ hw

theorem trimList_hasBlank (l : List Char) (h : hasBlankWord false l = false) :
    hasBlankWord false (trimList l) = false := by
  rw [trimList]
  have hd := hasBlank_dropWhile l h
  obtain ⟨s, hs, hws⟩ := trimRight_decomp (l.dropWhile isWsChar)
  rw [hs] at hd
  exact hasBlank_of_append_ws _ _ _ hws hd

/-- The cleaning step of `sanitizeQuestion` is idempotent. -/
theorem cleanList_idem (l : List Char) : cleanList (cleanList l) = cleanList l := by
  have hR2 := removeBla_noBlank (List.length l) l false (le_refl _)
  have hP1 := (collapse_hasBlank (List.length (removeBlankL l false 0))
    (removeBlankL l false 0) (le_refl _)).1 false hR2
  have hyB : hasBlankWord false (cleanList l) = false := by
    rw [cleanList]
    exact trimList_hasBlank _ hP1
  have hyA : noAdjWs (cleanList l) = true := by
    rw [cleanList]
    exact trimList_noAdj _ ((collapse_noAdj _).1)
  conv_lhs => rw [cleanList]
  rw [removeBla_id (cleanList l) false hyB, collapse_id (cleanList l) hyA]
  exact trimList_idem _

/-- `clean` of `sanitizeQuestion` is idempotent on strings. -/
theorem cleanStr_idem (s : String) : cleanStr (cleanStr s) = cleanStr s := by
  show (⟨cleanList (⟨cleanList s.data⟩ : String).data⟩ : String) = ⟨cleanList s.data⟩
  rw [show ((⟨cleanList s.data⟩ : String) : String).data = cleanList s.data from rfl,
    cleanList_idem]

theorem cleanV_idem (v : JsonV) : cleanV (cleanV v) = cleanV v := by
  cases v <;> first
    | rfl
    | simp [cleanV, cleanStr_idem]

/-- Does the field list bind the key? -/
def containsKey : List (String × JsonV) → String → Bool
  | [], _ => false
  | (k, _) :: rest, key => decide (k = key) || containsKey rest key

theorem containsKey_set (fs : List (String × JsonV)) (k : String) (v : JsonV) :
    containsKey (setFieldList fs k v) k = true := by
  induction fs with
  | nil => simp [setFieldList, containsKey]
  | cons p rest ih =>
    obtain ⟨k0, w⟩ := p
    by_cases h : k0 = k
    · simp [setFieldList, h, containsKey]
    · simp [setFieldList, h, containsKey, ih]

theorem containsKey_set_mono (fs : List (String × JsonV)) (k' k : String) (v : JsonV)
    (h : containsKey fs k' = true) : containsKey (setFieldList fs k v) k' = true := by
  induction fs with
  | nil => simp [containsKey] at h
  | cons p rest ih =>
    obtain ⟨k0, w⟩ := p
    rw [containsKey, Bool.or_eq_true] at h
    by_cases hk : k0 = k
    · rw [setFieldList, if_pos hk, containsKey, Bool.or_eq_true]
      rcases h with h | h
      · left
        rw [← hk]
        exact h
      · right
        exact h
    · rw [setFieldList, if_neg hk, containsKey, Bool.or_eq_true]
      rcases h with h | h
      · left
        exact h
      · right
        exact ih h

theorem setF_id (fs : List (String × JsonV)) (k : String) (v : JsonV)
    (hk : containsKey fs k = true) (hv : lookupField fs k = v) :
    setFieldList fs k v = fs := by
  induction fs with
  | nil => simp [containsKey] at hk
  | cons p rest ih =>
    obtain ⟨k0, w⟩ := p
    by_cases h : k0 = k
    · subst h
      rw [lookupField, if_pos rfl] at hv
      rw [setFieldList, if_pos rfl, hv]
    · rw [containsKey, Bool.or_eq_true] at hk
      rcases hk with hk | hk
      · exact absurd (of_decide_eq_true hk) h
      · rw [lookupField, if_neg h] at hv
        rw [setFieldList, if_neg h, ih hk hv]

theorem sanitize_obj (g : List (String × JsonV)) :
    sanitizeQuestion (JsonV.obj g) =
      JsonV.obj (setFieldList
        (setFieldList g "question" (cleanV (lookupField g "question")))
        "multipleChoiceOptions"
        (match lookupField g "multipleChoiceOptions" with
          | JsonV.arr xs => JsonV.arr (xs.map cleanV)
          | v => v)) := rfl

/-- Claim C8: the Sanitizer is idempotent — sanitizing an already-sanitized
unit returns it unchanged, for every unit. -/
theorem sanitizer_idempotent (q : JsonV) :
    sanitizeQuestion (sanitizeQuestion q) = sanitizeQuestion q := by
  cases q with
  | obj fs =>
    rw [sanitize_obj fs]
    rw [sanitize_obj]
    have hql : lookupField
        (setFieldList (setFieldList fs "question" (cleanV (lookupField fs "question")))
          "multipleChoiceOptions"
          (match lookupField fs "multipleChoiceOptions" with
            | JsonV.arr xs => JsonV.arr (xs.map cleanV)
            | v => v)) "question" = cleanV (lookupField fs "question") := by
      rw [lookup_set_ne _ _ _ _ (by decide), lookup_set_eq]
    have hml : lookupField
        (setFieldList (setFieldList fs "question" (cleanV (lookupField fs "question")))
          "multipleChoiceOptions"
          (match lookupField fs "multipleChoiceOptions" with
            | JsonV.arr xs => JsonV.arr (xs.map cleanV)
            | v => v)) "multipleChoiceOptions" =
        (match lookupField fs "multipleChoiceOptions" with
          | JsonV.arr xs => JsonV.arr (xs.map cleanV)
          | v => v) := lookup_set_eq _ _ _
    rw [hql, cleanV_idem, hml]
    have hopts : (match (match lookupField fs "multipleChoiceOptions" with
          | JsonV.arr xs => JsonV.arr (xs.map cleanV)
          | v => v) with
        | JsonV.arr xs => JsonV.arr (xs.map cleanV)
        | v => v) =
        (match lookupField fs "multipleChoiceOptions" with
          | JsonV.arr xs => JsonV.arr (xs.map cleanV)
          | v => v) := by
      cases lookupField fs "multipleChoiceOptions" with
      | arr xs =>
        show JsonV.arr ((xs.map cleanV).map cleanV) = JsonV.arr (xs.map cleanV)
        rw [List.map_map]
        exact congrArg _ (List.map_congr_left (fun x _ => cleanV_idem x))
      | null => rfl
      | boolean b => rfl
      | num x => rfl
      | str s => rfl
      | obj g => rfl
      | undefined => rfl
    rw [hopts]
    have hck1 : containsKey
        (setFieldList (setFieldList fs "question" (cleanV (lookupField fs "question")))
          "multipleChoiceOptions"
          (match lookupField fs "multipleChoiceOptions" with
            | JsonV.arr xs => JsonV.arr (xs.map cleanV)
            | v => v)) "question" = true :=
      containsKey_set_mono _ _ _ _ (containsKey_set fs "question" _)
    rw [setF_id _ _ _ hck1 hql]
    have hck2 : containsKey
        (setFieldList (setFieldList fs "question" (cleanV (lookupField fs "question")))
          "multipleChoiceOptions"
          (match lookupField fs "multipleChoiceOptions" with
            | JsonV.arr xs => JsonV.arr (xs.map cleanV)
            | v => v)) "multipleChoiceOptions" = true :=
      containsKey_set _ _ _
    rw [setF_id _ _ _ hck2 hml]
  | null => rfl
  | boolean b => rfl
  | num x => rfl
  | str s => rfl
  | arr xs => rfl
  | undefined => rfl

/-- Modelled from the claim's wording (C7), for comparison with the source's
`isValidQuestion`: stem a string with trimmed length at least 5; options an
array of exactly 4 strings non-empty after trimming; marker one of A-D;
explanations an object holding, for each label, a string non-empty after
trimming; and the correct-answer rationale "a non-empty string" — with no
trimming on the rationale, exactly as the claim states it. -/
def claimValidQuestion (q : JsonV) : Bool :=
  (match getField q "question" with
    | .str s => decide (5 ≤ (jsTrim s).length)
    | _ => false) &&
  (match getField q "multipleChoiceOptions" with
    | .arr xs =>
      decide (xs.length = 4) &&
        xs.all (fun x => match x with
          | .str s => decide (0 < (jsTrim s).length)
          | _ => false)
    | _ => false) &&
  (match getField q "correctAnswer" with
    | .str s => decide (s = "A") || decide (s = "B") || decide (s = "C") || decide (s = "D")
    | _ => false) &&
  (match getField q "incorrectExplanations" with
    | .obj fs => ["A", "B", "C", "D"].all (fun k =>
        match lookupField fs k with
        | .str s => decide (0 < (jsTrim s).length)
        | _ => false)
    | _ => false) &&
  (match getField q "correctExplanation" with
    | .str s => decide (s ≠ "")
    | _ => false)

/-- The claim's acceptance condition amended at its single point of
disagreement with the source: the correct-answer rationale must be non-empty
after trimming. -/
def amendedValid (q : JsonV) : Bool :=
  (match getField q "question" with
    | .str s => decide (5 ≤ (jsTrim s).length)
    | _ => false) &&
  (match getField q "multipleChoiceOptions" with
    | .arr xs =>
      decide (xs.length = 4) &&
        xs.all (fun x => match x with
          | .str s => decide (0 < (jsTrim s).length)
          | _ => false)
    | _ => false) &&
  (match getField q "correctAnswer" with
    | .str s => decide (s = "A") || decide (s = "B") || decide (s = "C") || decide (s = "D")
    | _ => false) &&
  (match getField q "incorrectExplanations" with
    | .obj fs => ["A", "B", "C", "D"].all (fun k =>
        match lookupField fs k with
        | .str s => decide (0 < (jsTrim s).length)
        | _ => false)
    | _ => false) &&
  (match getField q "correctExplanation" with
    | .str s => decide (0 < (jsTrim s).length)
    | _ => false)

/-- A candidate meeting every condition of the claim's wording whose
rationale is the whitespace-only string " ". -/
def qWsRationale : JsonV :=
  .obj [("question", .str "What is two plus two equal to?"),
        ("multipleChoiceOptions", .arr [.str "A. 1", .str "B. 2", .str "C. 3", .str "D. 4"]),
        ("correctAnswer", .str "D"),
        ("incorrectExplanations",
          .obj [("A", .str "One is too small."), ("B", .str "Two is too small."),
                ("C", .str "Three is one short."), ("D", .str "D is the correct choice.")]),
        ("correctExplanation", .str " ")]

/-- Claim C7, counterexample: a candidate whose correct-answer rationale is
the non-empty string " " satisfies every condition of the claim's wording,
yet the Validator rejects it (the source trims the rationale before testing
emptiness). -/
theorem validator_rationale_counterexample :
    claimValidQuestion qWsRationale = true ∧ isValidQuestion qWsRationale = false :=
  ⟨by decide, by decide⟩

theorem if_not_chain (a x : Bool) : (if (!a) = true then false else x) = (a && x) := by
  cases a <;> simp

theorem ie_chain_eq (v : JsonV) (E : Bool) :
    (if (falsyJ (if falsyJ v then JsonV.obj [] else v) ||
          !isObjectType (if falsyJ v then JsonV.obj [] else v)) = true then false
     else if (!(["A", "B", "C", "D"].all (fun k =>
            match getField (if falsyJ v then JsonV.obj [] else v) k with
            | .str s => decide (0 < (jsTrim s).length)
            | _ => false))) = true then false
     else E) =
    ((match v with
      | .obj fs => ["A", "B", "C", "D"].all (fun k =>
          match lookupField fs k with
          | .str s => decide (0 < (jsTrim s).length)
          | _ => false)
      | _ => false) && E) := by
  cases v with
  | null => simp [falsyJ, isObjectType, getField, lookupField]
  | boolean b => cases b <;> simp [falsyJ, isObjectType, getField, lookupField]
  | num q =>
    by_cases h : q = 0 <;> simp [falsyJ, isObjectType, getField, lookupField, h]
  | str s =>
    by_cases h : s = "" <;> simp [falsyJ, isObjectType, getField, lookupField, h]
  | arr xs => simp [falsyJ, isObjectType, getField]
  | undefined => simp [falsyJ, isObjectType, getField, lookupField]
  | obj fs =>
    simp only [falsyJ, isObjectType, getField, Bool.or_false, Bool.not_true,
      Bool.false_or, if_false]
    rw [if_not_chain]
    simp

/-- Claim C7, amended: the Validator accepts a candidate exactly when the
claim's conditions hold with the rationale tested non-empty after trimming. -/
theorem validator_amended (q : JsonV) :
    isValidQuestion q = true ↔ amendedValid q = true := by
  suffices h : isValidQuestion q = amendedValid q by rw [h]
  cases q with
  | null => rfl
  | boolean b => cases b <;> rfl
  | num x =>
    have hc : (falsyJ (JsonV.num x) || !isObjectType (JsonV.num x)) = true := by
      simp [isObjectType]
    simp [isValidQuestion, hc, amendedValid, getField]
  | str s =>
    have hc : (falsyJ (JsonV.str s) || !isObjectType (JsonV.str s)) = true := by
      simp [isObjectType]
    simp [isValidQuestion, hc, amendedValid, getField]
  | undefined => rfl
  | arr xs =>
    simp [isValidQuestion, amendedValid, falsyJ, isObjectType, getField]
  | obj fs =>
    have h1 : falsyJ (JsonV.obj fs) = false := rfl
    have h2 : isObjectType (JsonV.obj fs) = true := rfl
    have hg : ∀ k, getField (JsonV.obj fs) k = lookupField fs k := fun k => rfl
    simp only [isValidQuestion, amendedValid, h1, h2, hg]
    rw [if_neg (by simp)]
    rw [if_not_chain, if_not_chain, if_not_chain, ie_chain_eq]
    simp [Bool.and_assoc]

theorem qIdxs_append (a b : List Ev) : qIdxs (a ++ b) = qIdxs a ++ qIdxs b :=
  List.filterMap_append a b _

/-- One pipeline stage's effect: the counter only grows, the appended events
carry exactly the next consecutive question indices, and no terminal or
error event is produced. -/
def Emits (st st' : OrchSt) : Prop :=
  st.emitted ≤ st'.emitted ∧
  ∃ Δ, st'.events = st.events ++ Δ ∧
    qIdxs Δ = List.range' (st.emitted + 1) (st'.emitted - st.emitted) ∧
    Ev.done ∉ Δ ∧ Ev.error ∉ Δ

theorem Emits.rfl (st : OrchSt) : Emits st st :=
  ⟨le_refl _, [], by simp, by simp [qIdxs], by simp, by simp⟩

theorem Emits.trans {a b c : OrchSt} (h1 : Emits a b) (h2 : Emits b c) : Emits a c := by
  obtain ⟨hle1, Δ1, he1, hq1, hd1, hx1⟩ := h1
  obtain ⟨hle2, Δ2, he2, hq2, hd2, hx2⟩ := h2
  refine ⟨le_trans hle1 hle2, Δ1 ++ Δ2, by rw [he2, he1, List.append_assoc], ?_, ?_, ?_⟩
  · rw [qIdxs_append, hq1, hq2]
    have hr := List.range'_append (a.emitted + 1) (b.emitted - a.emitted)
      (c.emitted - b.emitted) 1
    rw [show a.emitted + 1 + 1 * (b.emitted - a.emitted) = b.emitted + 1 by omega] at hr
    rw [hr]
    congr 1
    omega
  · simp only [List.mem_append]
    rintro (h | h)
    · exact hd1 h
    · exact hd2 h
  · simp only [List.mem_append]
    rintro (h | h)
    · exact hx1 h
    · exact hx2 h

theorem seq_addServer (st : OrchSt) (s : String) :
    Emits st { st with events := st.events ++ [Ev.server s] } :=
  ⟨le_refl _, [Ev.server s], rfl, by simp [qIdxs], by simp, by simp⟩

theorem seq_acceptQ (count : Nat) (st : OrchSt) (q : JsonV) :
    Emits st (acceptQ count st q) := by
  refine ⟨Nat.le_succ _, [Ev.question (st.emitted + 1) q, Ev.progress (st.emitted + 1) count],
    rfl, ?_, by simp, by simp⟩
  have h1 : (acceptQ count st q).emitted - st.emitted = 1 := by
    show st.emitted + 1 - st.emitted = 1
    omega
  rw [h1, List.range'_one]
  rfl

theorem seq_processCompleteLine (parse : String → Option JsonV) (count : Nat)
    (st : OrchSt) (line : String) : Emits st (processCompleteLine parse count st line) := by
  rw [processCompleteLine]
  by_cases h0 : jsTrim line = ""
  · rw [if_pos h0]; exact Emits.rfl st
  · rw [if_neg h0]
    cases parse (jsTrim line) with
    | none => exact Emits.rfl st
    | some q =>
      by_cases hv : isValidQuestion q
      · simp only [hv, if_true]
        exact seq_acceptQ count st _
      · simp only [hv, if_false, Bool.false_eq_true]
        exact seq_addServer st _

theorem seq_foldl {α : Type} {f : OrchSt → α → OrchSt}
    (hf : ∀ st x, Emits st (f st x)) (xs : List α) (st : OrchSt) :
    Emits st (xs.foldl f st) := by
  induction xs generalizing st with
  | nil => exact Emits.rfl st
  | cons x xs ih => exact Emits.trans (hf st x) (ih (f st x))

theorem seq_processChunk (parse : String → Option JsonV) (count : Nat)
    (p : OrchSt × String) (txt : String) :
    Emits p.1 (processChunk parse count p txt).1 := by
  rw [processChunk]
  exact Emits.trans (seq_addServer p.1 "chunk")
    (seq_foldl (seq_processCompleteLine parse count) _ _)

theorem seq_primaryStage (parse : String → Option JsonV) (count : Nat)
    (chunks : List String) : Emits streamInitSt (primaryStage parse count chunks).1 := by
  rw [primaryStage]
  have hgen : ∀ (cs : List String) (p : OrchSt × String),
      Emits p.1 (cs.foldl (processChunk parse count) p).1 := by
    intro cs
    induction cs with
    | nil => exact fun p => Emits.rfl p.1
    | cons c cs ih =>
      intro p
      exact Emits.trans (seq_processChunk parse count p c) (ih _)
  exact hgen chunks (streamInitSt, "")

theorem seq_flushLine (parse : String → Option JsonV) (count : Nat)
    (st : OrchSt) (line : String) : Emits st (flushLine parse count st line) := by
  rw [flushLine]
  by_cases h0 : count ≤ st.emitted
  · rw [if_pos h0]; exact Emits.rfl st
  · rw [if_neg h0]
    cases parse line with
    | none => exact seq_addServer st _
    | some q =>
      by_cases hv : isValidQuestion q
      · simp only [hv, if_true]
        exact seq_acceptQ count st _
      · simp only [hv, if_false, Bool.false_eq_true]
        exact seq_addServer st _

theorem flushLine_le (parse : String → Option JsonV) (count : Nat)
    (st : OrchSt) (line : String) (h : st.emitted ≤ count) :
    (flushLine parse count st line).emitted ≤ count := by
  rw [flushLine]
  by_cases h0 : count ≤ st.emitted
  · rw [if_pos h0]; exact h
  · rw [if_neg h0]
    cases parse line with
    | none => exact h
    | some q =>
      by_cases hv : isValidQuestion q
      · simp only [hv, if_true]
        show st.emitted + 1 ≤ count
        omega
      · simp only [hv, if_false, Bool.false_eq_true]
        exact h

theorem seq_flushStage (parse : String → Option JsonV) (count : Nat)
    (st : OrchSt) (buf : String) : Emits st (flushStage parse count st buf) := by
  rw [flushStage]
  split
  · exact seq_foldl (seq_flushLine parse count) _ _
  · exact Emits.rfl st

theorem flushStage_le (parse : String → Option JsonV) (count : Nat)
    (st : OrchSt) (buf : String) (h : st.emitted ≤ count) :
    (flushStage parse count st buf).emitted ≤ count := by
  rw [flushStage]
  split
  · have hgen : ∀ (ls : List String) (s0 : OrchSt), s0.emitted ≤ count →
        (ls.foldl (flushLine parse count) s0).emitted ≤ count := by
      intro ls
      induction ls with
      | nil => exact fun s0 h0 => h0
      | cons l ls ih => exact fun s0 h0 => ih _ (flushLine_le parse count s0 l h0)
    exact hgen _ st h
  · exact h

theorem flushStage_skip (parse : String → Option JsonV) (count : Nat)
    (st : OrchSt) (buf : String) (h : count ≤ st.emitted) :
    flushStage parse count st buf = st := by
  rw [flushStage, if_neg]
  rintro ⟨-, hlt⟩
  omega

theorem seq_topupLine (parse : String → Option JsonV) (count : Nat) (verbose : Bool)
    (st : OrchSt) (line : String) : Emits st (topupLine parse count verbose st line) := by
  rw [topupLine]
  by_cases h0 : count ≤ st.emitted
  · rw [if_pos h0]; exact Emits.rfl st
  · rw [if_neg h0]
    cases parse line with
    | none =>
      cases verbose
      · exact Emits.rfl st
      · exact seq_addServer st _
    | some q =>
      by_cases hv : isValidQuestion q
      · simp only [hv, if_true]
        exact seq_acceptQ count st _
      · simp only [hv, if_false, Bool.false_eq_true]
        cases verbose
        · exact Emits.rfl st
        · exact seq_addServer st _

theorem topupLine_le (parse : String → Option JsonV) (count : Nat) (verbose : Bool)
    (st : OrchSt) (line : String) (h : st.emitted ≤ count) :
    (topupLine parse count verbose st line).emitted ≤ count := by
  rw [topupLine]
  by_cases h0 : count ≤ st.emitted
  · rw [if_pos h0]; exact h
  · rw [if_neg h0]
    cases parse line with
    | none =>
      cases verbose
      · exact h
      · exact h
    | some q =>
      by_cases hv : isValidQuestion q
      · simp only [hv, if_true]
        show st.emitted + 1 ≤ count
        omega
      · simp only [hv, if_false, Bool.false_eq_true]
        cases verbose
        · exact h
        · exact h

theorem seq_runTopup (parse : String → Option JsonV) (count : Nat) (verbose : Bool)
    (st : OrchSt) (text : String) : Emits st (runTopup parse count verbose st text) :=
  seq_foldl (seq_topupLine parse count verbose) _ _

theorem runTopup_le (parse : String → Option JsonV) (count : Nat) (verbose : Bool)
    (st : OrchSt) (text : String) (h : st.emitted ≤ count) :
    (runTopup parse count verbose st text).emitted ≤ count := by
  rw [runTopup]
  have hgen : ∀ (ls : List String) (s0 : OrchSt), s0.emitted ≤ count →
      (ls.foldl (topupLine parse count verbose) s0).emitted ≤ count := by
    intro ls
    induction ls with
    | nil => exact fun s0 h0 => h0
    | cons l ls ih => exact fun s0 h0 => ih _ (topupLine_le parse count verbose s0 l h0)
  exact hgen _ st h

theorem topupStage_ok (parse : String → Option JsonV) (count : Nat) (b : Behavior)
    (st : OrchSt) (t1 t2 t3 : String)
    (h1 : b.topup1 = .ok t1) (h2 : b.topup2 = .ok t2) (h3 : b.topup3 = .ok t3) :
    ∃ st', topupStage parse count b st = .ok st' ∧ Emits st st' ∧
      st'.emitted ≤ max st.emitted count ∧ (count ≤ st.emitted → st' = st) := by
  by_cases hlt : st.emitted < count
  · simp only [topupStage, h1, h2, h3, if_pos hlt]
    have hsA : Emits st
        (runTopup parse count true { st with events := st.events ++ [Ev.server "fallback-topup"] } t1) :=
      (seq_addServer st "fallback-topup").trans (seq_runTopup parse count true _ t1)
    have hleA : (runTopup parse count true
        { st with events := st.events ++ [Ev.server "fallback-topup"] } t1).emitted ≤ count :=
      runTopup_le parse count true _ t1 (le_of_lt hlt)
    generalize hA : runTopup parse count true
      { st with events := st.events ++ [Ev.server "fallback-topup"] } t1 = stA at hsA hleA ⊢
    by_cases hlt2 : stA.emitted < count
    · rw [if_pos hlt2]
      have hsB : Emits stA
          (runTopup parse count false { stA with events := stA.events ++ [Ev.server "second-retry"] } t2) :=
        (seq_addServer stA "second-retry").trans (seq_runTopup parse count false _ t2)
      have hleB : (runTopup parse count false
          { stA with events := stA.events ++ [Ev.server "second-retry"] } t2).emitted ≤ count :=
        runTopup_le parse count false _ t2 (le_of_lt hlt2)
      generalize hB : runTopup parse count false
        { stA with events := stA.events ++ [Ev.server "second-retry"] } t2 = stB at hsB hleB ⊢
      by_cases hlt4 : stB.emitted < count
      · rw [if_pos hlt4]
        have hsC : Emits stB
            (runTopup parse count false { stB with events := stB.events ++ [Ev.server "final-retry"] } t3) :=
          (seq_addServer stB "final-retry").trans (seq_runTopup parse count false _ t3)
        have hleC : (runTopup parse count false
            { stB with events := stB.events ++ [Ev.server "final-retry"] } t3).emitted ≤ count :=
          runTopup_le parse count false _ t3 (le_of_lt hlt4)
        exact ⟨_, rfl, hsA.trans (hsB.trans hsC), by omega,
          fun hge => absurd hlt (by omega)⟩
      · rw [if_neg hlt4]
        exact ⟨stB, rfl, hsA.trans hsB, by omega, fun hge => absurd hlt (by omega)⟩
    · rw [if_neg hlt2]
      exact ⟨stA, rfl, hsA, by omega, fun hge => absurd hlt (by omega)⟩
  · simp only [topupStage, if_neg hlt]
    exact ⟨st, rfl, Emits.rfl st, by omega, fun _ => rfl⟩

theorem seq_singleRetry (parse : String → Option JsonV) (count : Nat) (topic : String)
    (st : OrchSt) (dedup : List String) (rres : Except Unit String) :
    (singleRetry parse count topic st dedup rres).1.emitted = st.emitted + 1 ∧
    Emits st (singleRetry parse count topic st dedup rres).1 := by
  cases rres with
  | error e => exact ⟨rfl, seq_acceptQ count st _⟩
  | ok raw2 =>
    cases hc : candOK (parseSingle parse raw2) with
    | none =>
      simp only [singleRetry, hc]
      exact ⟨rfl, seq_acceptQ count st _⟩
    | some v2 =>
      by_cases hm : normalizeStem (stemOrEmpty v2) ∈ dedup
      · simp only [singleRetry, hc, if_pos hm]
        exact ⟨rfl, seq_acceptQ count st _⟩
      · simp only [singleRetry, hc, if_neg hm]
        exact ⟨rfl, seq_acceptQ count st _⟩

theorem seq_singleIter (parse : String → Option JsonV) (count : Nat) (topic : String)
    (st : OrchSt) (dedup : List String) (sres rres : Except Unit String) :
    (singleIter parse count topic st dedup sres rres).1.emitted = st.emitted + 1 ∧
    Emits st (singleIter parse count topic st dedup sres rres).1 := by
  cases sres with
  | error e => exact ⟨rfl, seq_acceptQ count st _⟩
  | ok raw =>
    cases hc : candOK (parseSingle parse raw) with
    | none =>
      simp only [singleIter, hc]
      exact seq_singleRetry parse count topic st dedup rres
    | some v =>
      by_cases hm : normalizeStem (stemOrEmpty v) ∈ dedup
      · simp only [singleIter, hc, if_pos hm]
        exact seq_singleRetry parse count topic st dedup rres
      · simp only [singleIter, hc, if_neg hm]
        exact ⟨rfl, seq_acceptQ count st _⟩

theorem singleLoop_spec (parse : String → Option JsonV) (count : Nat) (topic : String)
    (singles retries : List (Except Unit String)) (fuel : Nat) :
    ∀ (i : Nat) (st : OrchSt) (dedup : List String),
      (singleLoop parse count topic singles retries fuel i st dedup).emitted =
        st.emitted + fuel ∧
      Emits st (singleLoop parse count topic singles retries fuel i st dedup) := by
  induction fuel with
  | zero => exact fun i st dedup => ⟨rfl, Emits.rfl st⟩
  | succ fuel ih =>
    intro i st dedup
    rw [singleLoop]
    obtain ⟨he, hs⟩ := seq_singleIter parse count topic st dedup
      (singles.getD i (.error ())) (retries.getD i (.error ()))
    obtain ⟨he2, hs2⟩ := ih (i + 1)
      (singleIter parse count topic st dedup
        (singles.getD i (.error ())) (retries.getD i (.error ()))).1
      (singleIter parse count topic st dedup
        (singles.getD i (.error ())) (retries.getD i (.error ()))).2
    refine ⟨?_, hs.trans hs2⟩
    rw [he2, he]
    omega

theorem singleStage_run (parse : String → Option JsonV) (count : Nat) (topic : String)
    (b : Behavior) (st : OrchSt) (h : st.emitted < count) :
    (singleStage parse count topic b st).emitted = count ∧
    Emits st (singleStage parse count topic b st) := by
  rw [singleStage, if_pos h]
  have hs1 := seq_addServer st "final-single-regeneration"
  obtain ⟨he, hs2⟩ := singleLoop_spec parse count topic b.singles b.retries
    (count - st.emitted) 0
    { st with events := st.events ++ [Ev.server "final-single-regeneration"] } []
  refine ⟨?_, hs1.trans hs2⟩
  rw [he]
  show st.emitted + (count - st.emitted) = count
  omega

theorem singleStage_skip (parse : String → Option JsonV) (count : Nat) (topic : String)
    (b : Behavior) (st : OrchSt) (h : count ≤ st.emitted) :
    singleStage parse count topic b st = st := by
  rw [singleStage, if_neg]
  omega

/-- Composite stage description of the whole streaming path with successful
bulk top-up calls: the final state continues `streamInitSt`, its counter is
`max V count` for `V` the primary-stream acceptance count, and the emitted
events are that state's events followed by `done`. -/
theorem streamPath_spec (parse : String → Option JsonV) (count : Nat) (topic : String)
    (b : Behavior) (t1 t2 t3 : String)
    (h1 : b.topup1 = .ok t1) (h2 : b.topup2 = .ok t2) (h3 : b.topup3 = .ok t3) :
    ∃ stF, Emits streamInitSt stF ∧
      stF.emitted = max (primaryStage parse count b.chunks).1.emitted count ∧
      runStreamPath parse count topic b = stF.events ++ [Ev.done] := by
  obtain hseqP := seq_primaryStage parse count b.chunks
  set P := primaryStage parse count b.chunks with hP
  set V := P.1.emitted with hV
  have hseqF := seq_flushStage parse count P.1 P.2
  set stFl := flushStage parse count P.1 P.2 with hFl
  obtain ⟨st2, hok, hseqT, hleT, hskipT⟩ :=
    topupStage_ok parse count b stFl t1 t2 t3 h1 h2 h3
  rw [runStreamPath]
  rw [← hP, ← hFl, hok]
  by_cases hvc : count ≤ V
  · have hFlid : stFl = P.1 := flushStage_skip parse count P.1 P.2 hvc
    have hst2 : st2 = stFl := hskipT (by rw [hFlid]; exact hvc)
    have hsingle : singleStage parse count topic b st2 = st2 :=
      singleStage_skip parse count topic b st2 (by rw [hst2, hFlid]; exact hvc)
    refine ⟨st2, hseqP.trans (hseqF.trans hseqT), ?_, by
      show (singleStage parse count topic b st2).events ++ [Ev.done] = st2.events ++ [Ev.done]
      rw [hsingle]⟩
    rw [hst2, hFlid, ← hV]
    omega
  · push_neg at hvc
    have hleF : stFl.emitted ≤ count := flushStage_le parse count P.1 P.2 (le_of_lt hvc)
    have hle2 : st2.emitted ≤ count := by
      have := hleT
      omega
    by_cases hlt2 : st2.emitted < count
    · obtain ⟨heS, hseqS⟩ := singleStage_run parse count topic b st2 hlt2
      refine ⟨_, hseqP.trans (hseqF.trans (hseqT.trans hseqS)), ?_, rfl⟩
      rw [heS]
      omega
    · have hsingle : singleStage parse count topic b st2 = st2 :=
        singleStage_skip parse count topic b st2 (by omega)
      refine ⟨st2, hseqP.trans (hseqF.trans hseqT), ?_, by
        show (singleStage parse count topic b st2).events ++ [Ev.done] = st2.events ++ [Ev.done]
        rw [hsingle]⟩
      omega

/-- Session-level consequence of `streamPath_spec`: question indices and the
terminal event of a completed streaming session. -/
theorem session_stream_spec (parse : String → Option JsonV) (count : Nat) (topic : String)
    (b : Behavior) (t1 t2 t3 : String) (hp : b.primaryCall = .ok true)
    (h1 : b.topup1 = .ok t1) (h2 : b.topup2 = .ok t2) (h3 : b.topup3 = .ok t3) :
    qIdxs (runSession parse count topic b) =
      List.range' 1 (max (primaryStage parse count b.chunks).1.emitted count) ∧
    (runSession parse count topic b).getLast? = some Ev.done := by
  have hrun : runSession parse count topic b = runStreamPath parse count topic b := by
    rw [runSession, hp]
  obtain ⟨stF, hseq, hM, hev⟩ := streamPath_spec parse count topic b t1 t2 t3 h1 h2 h3
  obtain ⟨hle, Δ, heΔ, hqΔ, -, -⟩ := hseq
  constructor
  · rw [hrun, hev, qIdxs_append, heΔ, qIdxs_append, hqΔ]
    have e1 : qIdxs streamInitSt.events = [] := rfl
    have e2 : qIdxs [Ev.done] = [] := rfl
    have e3 : streamInitSt.emitted = 0 := rfl
    rw [e1, e2, e3, hM]
    simp
  · rw [hrun, hev]
    exact List.getLast?_concat _

/-- Claim C1, amended: on the streaming path with successful bulk top-up
calls, the question events of a completed session carry exactly the indices
1..M consecutively, in order, with no gaps, where M = max(V, N) for V the
number of candidates accepted from the primary stream; at least N events are
always emitted, and exactly N when the stream yields at most N valid
candidates — but V > N produces M = V > N events, since the primary loop
does not cap acceptance. -/
theorem stream_indices_amended (parse : String → Option JsonV) (count : Nat)
    (topic : String) (b : Behavior) (t1 t2 t3 : String)
    (hp : b.primaryCall = .ok true)
    (h1 : b.topup1 = .ok t1) (h2 : b.topup2 = .ok t2) (h3 : b.topup3 = .ok t3)
    (hc1 : 1 ≤ count) (hc10 : count ≤ 10) :
    qIdxs (runSession parse count topic b) =
      List.range' 1 (max (primaryStage parse count b.chunks).1.emitted count) ∧
    (runSession parse count topic b).getLast? = some Ev.done ∧
    count ≤ (qIdxs (runSession parse count topic b)).length ∧
    ((primaryStage parse count b.chunks).1.emitted ≤ count →
      (qIdxs (runSession parse count topic b)).length = count) := by
  obtain ⟨hq, hlast⟩ := session_stream_spec parse count topic b t1 t2 t3 hp h1 h2 h3
  refine ⟨hq, hlast, ?_, ?_⟩
  · rw [hq, List.length_range']
    omega
  · intro hVle
    rw [hq, List.length_range']
    omega

/-- Witness for `stream_indices_amended`: requested count 1, primary stream
carrying two valid lines — indices [1, 2], completed session. -/
theorem stream_indices_amended_witness :
    qIdxs (runSession testParse 1 "T" bhvOverflow) =
      List.range' 1 (max (primaryStage testParse 1 bhvOverflow.chunks).1.emitted 1) ∧
    (runSession testParse 1 "T" bhvOverflow).getLast? = some Ev.done ∧
    1 ≤ (qIdxs (runSession testParse 1 "T" bhvOverflow)).length ∧
    ((primaryStage testParse 1 bhvOverflow.chunks).1.emitted ≤ 1 →
      (qIdxs (runSession testParse 1 "T" bhvOverflow)).length = 1) :=
  stream_indices_amended testParse 1 "T" bhvOverflow "" "" "" rfl rfl rfl rfl
    (by omega) (by omega)

/-- Claim C2, amended: on the streaming path with successful bulk top-up
calls the session always terminates with `done` and never delivers fewer
question events than the requested count — the synthetic filler guarantees
the shortfall is filled slot by slot. -/
theorem stream_at_least_count (parse : String → Option JsonV) (count : Nat)
    (topic : String) (b : Behavior) (t1 t2 t3 : String)
    (hp : b.primaryCall = .ok true)
    (h1 : b.topup1 = .ok t1) (h2 : b.topup2 = .ok t2) (h3 : b.topup3 = .ok t3) :
    count ≤ (qIdxs (runSession parse count topic b)).length ∧
    (runSession parse count topic b).getLast? = some Ev.done := by
  obtain ⟨hq, hlast⟩ := session_stream_spec parse count topic b t1 t2 t3 hp h1 h2 h3
  refine ⟨?_, hlast⟩
  rw [hq, List.length_range']
  omega

/-- A streaming session whose stream yields one valid line for a requested
count of two, forcing single-item recovery to fill the last slot. -/
def bhvOneShort : Behavior := okBehavior true [q1Text ++ "\n"] "" "" "" "" ""

/-- Witness for `stream_at_least_count`: count 2 with one streamed unit —
the completed session still carries 2 question events. -/
theorem stream_at_least_count_witness :
    2 ≤ (qIdxs (runSession testParse 2 "T" bhvOneShort)).length ∧
    (runSession testParse 2 "T" bhvOneShort).getLast? = some Ev.done :=
  stream_at_least_count testParse 2 "T" bhvOneShort "" "" "" rfl rfl rfl rfl

theorem topupStage_err1 (parse : String → Option JsonV) (count : Nat) (b : Behavior)
    (st : OrchSt) (ht : b.topup1 = .error ()) (hlt : st.emitted < count) :
    topupStage parse count b st =
      .error ((st.events ++ [Ev.server "fallback-topup"]) ++ [Ev.error]) := by
  simp only [topupStage, ht, if_pos hlt]

theorem emits_no_done (st st' : OrchSt) (h : Emits st st')
    (h0 : Ev.done ∉ st.events) : Ev.done ∉ st'.events := by
  obtain ⟨-, Δ, he, -, hd, -⟩ := h
  rw [he]
  intro hm
  rcases List.mem_append.mp hm with hh | hh
  · exact h0 hh
  · exact hd hh

/-- Claim C5, amended: (i) a thrown very first primary call aborts the
request with the `error` event; (ii) a throw from the first bulk top-up call
is not caught locally — the session emits `error` after the `fallback-topup`
stage marker and aborts with no terminal `done`; (iii) throws from the
single-item recovery calls are caught locally and the session still
completes with `done` (whatever the single/retry call outcomes, which
default to throws here). -/
theorem error_path_amended (parse : String → Option JsonV) (count : Nat)
    (topic : String) (b : Behavior) :
    (b.primaryCall = .error () →
      runSession parse count topic b =
        [Ev.server "received", Ev.server "prompt-built", Ev.error]) ∧
    (b.primaryCall = .ok true → b.topup1 = .error () →
      (flushStage parse count (primaryStage parse count b.chunks).1
        (primaryStage parse count b.chunks).2).emitted < count →
      runSession parse count topic b =
        (flushStage parse count (primaryStage parse count b.chunks).1
          (primaryStage parse count b.chunks).2).events ++
          [Ev.server "fallback-topup", Ev.error] ∧
      Ev.done ∉ runSession parse count topic b) ∧
    (∀ t1 t2 t3, b.primaryCall = .ok true → b.topup1 = .ok t1 → b.topup2 = .ok t2 →
      b.topup3 = .ok t3 →
      (runSession parse count topic b).getLast? = some Ev.done) := by
  refine ⟨?_, ?_, ?_⟩
  · intro h
    rw [runSession, h]
  · intro hp ht hlt
    have hrun : runSession parse count topic b = runStreamPath parse count topic b := by
      rw [runSession, hp]
    have herr := topupStage_err1 parse count b
      (flushStage parse count (primaryStage parse count b.chunks).1
        (primaryStage parse count b.chunks).2) ht hlt
    have hev : runStreamPath parse count topic b =
        (flushStage parse count (primaryStage parse count b.chunks).1
          (primaryStage parse count b.chunks).2).events ++
          [Ev.server "fallback-topup", Ev.error] := by
      rw [runStreamPath, herr]
      simp
    have hnodone : Ev.done ∉ (flushStage parse count (primaryStage parse count b.chunks).1
        (primaryStage parse count b.chunks).2).events := by
      apply emits_no_done _ _
        ((seq_primaryStage parse count b.chunks).trans
          (seq_flushStage parse count (primaryStage parse count b.chunks).1
            (primaryStage parse count b.chunks).2))
      simp [streamInitSt]
    refine ⟨by rw [hrun, hev], ?_⟩
    rw [hrun, hev]
    intro hm
    rcases List.mem_append.mp hm with hh | hh
    · exact hnodone hh
    · rcases List.mem_cons.mp hh with hh2 | hh2
      · exact Ev.noConfusion hh2
      · rcases List.mem_cons.mp hh2 with hh3 | hh3
        · exact Ev.noConfusion hh3
        · exact absurd hh3 (List.not_mem_nil _)
  · intro t1 t2 t3 hp h1 h2 h3
    exact (session_stream_spec parse count topic b t1 t2 t3 hp h1 h2 h3).2

/-- A session whose very first primary call throws. -/
def bhvFirstThrow : Behavior :=
  { okBehavior true [] "" "" "" "" "" with primaryCall := .error () }

/-- Witness for `error_path_amended`: a thrown first call aborts with
`error`; a thrown first top-up (count 1, empty stream) aborts without
`done`; an all-successful topup ladder completes with `done`. -/
theorem error_path_amended_witness :
    runSession testParse 1 "T" bhvFirstThrow =
      [Ev.server "received", Ev.server "prompt-built", Ev.error] ∧
    (runSession testParse 1 "T" bhvTopupThrow =
      (flushStage testParse 1 (primaryStage testParse 1 bhvTopupThrow.chunks).1
        (primaryStage testParse 1 bhvTopupThrow.chunks).2).events ++
        [Ev.server "fallback-topup", Ev.error] ∧
      Ev.done ∉ runSession testParse 1 "T" bhvTopupThrow) ∧
    (runSession testParse 1 "T" (okBehavior true [] "" "" "" "" "")).getLast? =
      some Ev.done :=
  ⟨(error_path_amended testParse 1 "T" bhvFirstThrow).1 rfl,
    (error_path_amended testParse 1 "T" bhvTopupThrow).2.1 rfl rfl (by decide),
    (error_path_amended testParse 1 "T" (okBehavior true [] "" "" "" "" "")).2.2
      "" "" "" rfl rfl rfl rfl⟩

/-- Claim C1, counterexample: for a valid request with requested count 1,
a completed streaming session (terminal event present and last) emits two
`question` events when the model stream produces two valid candidate lines —
the primary streaming loop does not cap acceptance at the requested count,
so the claimed "exactly N events, no excess" fails. -/
theorem primary_uncapped_counterexample :
    qIdxs (runSession testParse 1 "T" bhvOverflow) = [1, 2] ∧
    (runSession testParse 1 "T" bhvOverflow).getLast? = some Ev.done ∧
    (qIdxs (runSession testParse 1 "T" bhvOverflow)).length ≠ 1 :=
  ⟨by decide, rfl, by decide⟩

/-- Claim C2, counterexample: on the non-streaming fallback path (no
streaming channel), a session whose bulk call and single top-up round both
yield no valid unit still terminates with `done` after zero `question`
events — fewer than the requested count 1, with no synthetic filler. -/
theorem fallback_short_counterexample :
    (runSession testParse 1 "T" bhvFallbackShort).getLast? = some Ev.done ∧
    qIdxs (runSession testParse 1 "T" bhvFallbackShort) = [] :=
  ⟨rfl, by decide⟩

/-- Claim C5, counterexample: when the first bulk top-up call throws, the
session is not escalated to the next tier: it ends with the `error` event and
never emits `done` — the claimed "caught locally, escalates, still
completes" fails for a call that is not the very first primary call. -/
theorem topup_throw_counterexample :
    (runSession testParse 1 "T" bhvTopupThrow).getLast? = some Ev.error ∧
    hasDoneB (runSession testParse 1 "T" bhvTopupThrow) = false :=
  ⟨rfl, rfl⟩

/-- Claim C3: a streaming session in which the primary stream emits the same
valid candidate line twice accepts both copies — their normalized-stem
fingerprints coincide, so the dedup invariant is violated (the dedup set
exists only inside single-item recovery and starts empty). -/
theorem dedup_bug_eval :
    qIdxs (runSession testParse 2 "T" bhvDup) = [1, 2] ∧
    (qUnits (runSession testParse 2 "T" bhvDup)).map (fun q => normalizeStem (stemOrEmpty q)) =
      ["what is two plus two equal to?", "what is two plus two equal to?"] :=
  ⟨by decide, by decide⟩

/-- Claim C9, counterexample: the chunk "A\nB" followed by the chunk "C\n"
yields the candidates ["A", "BC"] — the buffered remainder "B" is joined
with the next chunk, so the claimed ["A", "B", "C"] is wrong. -/
theorem framer_chunk_counterexample :
    frameCandidates ["A\nB", "C\n"] = ["A", "BC"] ∧
    frameCandidates ["A\nB", "C\n"] ≠ ["A", "B", "C"] :=
  ⟨by decide, by decide⟩

/-- Claim C4, counterexample: when the model's text parses to an object with
an empty `questions` array, the non-streaming endpoint returns status 200
with 0 questions, although the effective requested count defaults to 10 —
the response length is not checked against the count. -/
theorem nonstream_len_counterexample :
    (nonStreamBody testParse emptyQsText).1 = 200 ∧
    questionsLen (nonStreamBody testParse emptyQsText).2 = 0 ∧
    effectiveCount none = 10 :=
  ⟨rfl, by decide, rfl⟩

/-- Claim C6, counterexample: a fractional requested count of 1/2 is
positive, so it is only capped at 10 and passes through unchanged — the
effective count is 1/2, outside the claimed interval [1, 10]. -/
theorem count_clamp_counterexample :
    effectiveCount (some (1/2)) = 1/2 ∧ ¬ (1 ≤ effectiveCount (some (1/2))) := by
  constructor
  · show (if (0 : Rat) < 1/2 then min 10 (1/2) else 10) = 1/2
    rw [if_pos (by norm_num)]
    norm_num [min_def]
  · show ¬ (1 ≤ if (0 : Rat) < 1/2 then min 10 (1/2) else 10)
    rw [if_pos (by norm_num)]
    norm_num [min_def]

/-- Claim C6, amended: the effective count is always in the half-open
interval (0, 10]; it is 10 when `count` is absent or non-positive, and any
supplied value in [1, 10] is used unchanged — but positive values below 1
pass through, so 1 is not a lower bound. -/
theorem count_clamp_amended (c : Option Rat) :
    0 < effectiveCount c ∧ effectiveCount c ≤ 10 ∧
    effectiveCount none = 10 ∧
    (∀ x : Rat, x ≤ 0 → effectiveCount (some x) = 10) ∧
    (∀ x : Rat, 1 ≤ x → x ≤ 10 → effectiveCount (some x) = x) := by
  refine ⟨?_, ?_, rfl, ?_, ?_⟩
  · cases c with
    | none => norm_num [effectiveCount]
    | some x =>
      show (0 : Rat) < if (0 : Rat) < x then min 10 x else 10
      split
      · exact lt_min (by norm_num) (by assumption)
      · norm_num
  · cases c with
    | none => norm_num [effectiveCount]
    | some x =>
      show (if (0 : Rat) < x then min 10 x else 10) ≤ 10
      split
      · exact min_le_left _ _
      · norm_num
  · intro x hx
    show (if (0 : Rat) < x then min 10 x else 10) = 10
    rw [if_neg (by linarith)]
  · intro x h1 h10
    show (if (0 : Rat) < x then min 10 x else 10) = x
    rw [if_pos (by linarith)]
    exact min_eq_right h10

/-- Witness for `count_clamp_amended` at concrete counts 3 and -1. -/
theorem count_clamp_amended_witness :
    0 < effectiveCount (some 3) ∧ effectiveCount (some 3) ≤ 10 ∧
    effectiveCount (some (-1)) = 10 ∧ effectiveCount (some 3) = 3 := by
  obtain ⟨h1, h2, _, h4, h5⟩ := count_clamp_amended (some 3)
  exact ⟨h1, h2, h4 (-1) (by norm_num), h5 3 (by norm_num) (by norm_num)⟩
